import Mathlib

/-!
# Verification of the langextract-typescript resolution and chunking core

A shallow embedding of the output-resolution / alignment engine and the
chunking / multi-pass orchestration of the langextract-typescript library.
Text is modelled as `List Char`; JavaScript numbers that hold array indices
and offsets are modelled as `Nat` (with `Int` where the source computes a
possibly negative bound); the fuzzy-match ratio is modelled as `ℚ`
(0.75 is exactly representable).  Fallible JavaScript code (thrown
`TypeError`s, `ResolverParsingError`) is modelled with `Except String`.
-/

namespace LangExtract

/-! ## Character classes of the JavaScript regex escapes

`\w` in JavaScript is exactly `[A-Za-z0-9_]`.  `\s` is the Unicode
whitespace set used by both the tokenizer regex and `String.prototype.trim`.
-/

/-- JavaScript `\w`: ASCII letters, digits and underscore. -/
def isWordChar (c : Char) : Bool :=
  decide (97 ≤ c.toNat ∧ c.toNat ≤ 122) ||
  decide (65 ≤ c.toNat ∧ c.toNat ≤ 90) ||
  decide (48 ≤ c.toNat ∧ c.toNat ≤ 57) ||
  decide (c.toNat = 95)

/-- JavaScript `\s` (also the set trimmed by `String.prototype.trim`):
space, tab, line terminators and the Unicode space separators. -/
def isJsSpace (c : Char) : Bool :=
  decide (c.toNat = 32) || decide (9 ≤ c.toNat ∧ c.toNat ≤ 13) ||
  decide (c.toNat = 0xa0) || decide (c.toNat = 0x1680) ||
  decide (0x2000 ≤ c.toNat ∧ c.toNat ≤ 0x200a) ||
  decide (c.toNat = 0x2028) || decide (c.toNat = 0x2029) ||
  decide (c.toNat = 0x202f) || decide (c.toNat = 0x205f) ||
  decide (c.toNat = 0x3000) || decide (c.toNat = 0xfeff)

theorem isWordChar_not_isJsSpace {c : Char} (h : isWordChar c = true) :
    isJsSpace c = false := by
  simp only [isWordChar, Bool.or_eq_true, decide_eq_true_eq] at h
  simp only [isJsSpace, Bool.or_eq_false_iff, decide_eq_false_iff_not]
  omega

/-- `text.toLowerCase()`: JavaScript lowercases each character
(`Char.toLower` agrees on the ASCII range produced by the tokenizer). -/
def jsToLower (cs : List Char) : List Char := cs.map Char.toLower

/-- `text.trim()`: drop leading and trailing whitespace. -/
def jsTrim (cs : List Char) : List Char :=
  ((cs.dropWhile isJsSpace).reverse.dropWhile isJsSpace).reverse

/-- `substring`/`slice` of a text at half-open character bounds. -/
def slice (text : List Char) (s e : Nat) : List Char :=
  (text.drop s).take (e - s)

/-! ## Data model (`types.ts`, documented in the README)

`CharInterval`/`TokenInterval` fields are optional in the TypeScript
declarations but are always set by the tokenizer and the aligner, the only
producers in this core; they are modelled total.  `Extraction.attributes`
holds whatever object/array the resolver copied out of the parsed record.
-/

structure CharInterval where
  startPos : Nat
  endPos : Nat
deriving Repr, DecidableEq

structure TokenInterval where
  startToken : Nat
  endToken : Nat
deriving Repr, DecidableEq

inductive AlignmentStatus where
  | MATCH_EXACT
  | MATCH_GREATER
  | MATCH_LESSER
  | MATCH_FUZZY
deriving Repr, DecidableEq

structure TokenizedText where
  tokens : List (List Char)
  tokenIntervals : List TokenInterval
  charIntervals : List CharInterval
deriving Repr, DecidableEq

/-! ## Tokenizer (`tokenizer.ts`)

`tokenize` scans with the regex `\b\w+\b|[^\w\s]` under the `g` flag:
left to right it matches a maximal run of word characters, or a single
character that is neither a word character nor whitespace; whitespace
yields no token.  One internal token record carries the token text and its
character bounds. -/

structure Tok where
  text : List Char
  s : Nat
  e : Nat
deriving Repr, DecidableEq

theorem dropWhile_length_le (p : α → Bool) : ∀ l : List α, (l.dropWhile p).length ≤ l.length
  | [] => le_refl _
  | a :: l => by
      rw [List.dropWhile_cons]
      split
      · exact le_trans (dropWhile_length_le p l) (Nat.le_succ _)
      · exact le_refl _

/-- The regex scan: one fuel unit per consumed character is sufficient since
every step consumes at least one character; `tokenize` supplies
`text.length`.  (Structural recursion on the fuel keeps the definition
computable by the kernel.) -/
def tokenizeLoop : Nat → List Char → Nat → List Tok
  | 0, _, _ => []
  | _ + 1, [], _ => []
  | fuel + 1, c :: rest, pos =>
    if isWordChar c then
      Tok.mk (c :: rest.takeWhile isWordChar) pos
          (pos + (c :: rest.takeWhile isWordChar).length) ::
        tokenizeLoop fuel (rest.dropWhile isWordChar)
          (pos + (c :: rest.takeWhile isWordChar).length)
    else if isJsSpace c then
      tokenizeLoop fuel rest (pos + 1)
    else
      Tok.mk [c] pos (pos + 1) :: tokenizeLoop fuel rest (pos + 1)

/-- `tokenize(text)`: three parallel sequences.  The source pushes to the
three arrays in lockstep with a running token index. -/
def tokenize (text : List Char) : TokenizedText :=
  let toks := tokenizeLoop text.length text 0
  { tokens := toks.map Tok.text
    tokenIntervals := (List.range toks.length).map (fun k => ⟨k, k + 1⟩)
    charIntervals := toks.map (fun t => ⟨t.s, t.e⟩) }

/-- `normalizeToken`: `token.toLowerCase().trim()`. -/
def normalizeToken (token : List Char) : List Char :=
  jsTrim (jsToLower token)

/-! ### Structural lemmas about the tokenizer -/

theorem take_takeWhile_length (p : α → Bool) :
    ∀ l : List α, l.take (l.takeWhile p).length = l.takeWhile p
  | [] => rfl
  | a :: l => by
    rw [List.takeWhile_cons]
    split
    · simp [take_takeWhile_length p l]
    · simp

theorem drop_append_ge (l₁ l₂ : List α) :
    ∀ n, l₁.length ≤ n → (l₁ ++ l₂).drop n = l₂.drop (n - l₁.length) := by
  induction l₁ with
  | nil => simp
  | cons a l ih =>
    intro n h
    match n, h with
    | n + 1, h =>
      simp only [List.cons_append, List.drop_succ_cons, List.length_cons]
      rw [ih n (by simpa using h)]
      congr 1
      omega

theorem takeWhile_add_dropWhile_length (p : α → Bool) (l : List α) :
    (l.takeWhile p).length + (l.dropWhile p).length = l.length := by
  rw [← List.length_append, List.takeWhile_append_dropWhile]

theorem takeWhile_length_le (p : α → Bool) (l : List α) :
    (l.takeWhile p).length ≤ l.length := by
  have := takeWhile_add_dropWhile_length p l
  omega

theorem tokenizeLoop_join :
    ∀ fuel (cs : List Char) (pos : Nat), cs.length ≤ fuel →
      ((tokenizeLoop fuel cs pos).map Tok.text).flatten
        = cs.filter (fun c => !isJsSpace c) := by
  intro fuel
  induction fuel with
  | zero =>
    intro cs pos h
    obtain rfl := List.length_eq_zero.mp (Nat.le_zero.mp h)
    simp [tokenizeLoop]
  | succ fuel ih =>
    intro cs pos h
    cases cs with
    | nil => simp [tokenizeLoop]
    | cons c rest =>
      simp only [List.length_cons] at h
      by_cases hw : isWordChar c = true
      · rw [tokenizeLoop]
        simp only [hw, if_pos, List.map_cons, List.flatten_cons,
          ih (rest.dropWhile isWordChar) _
            (le_trans (dropWhile_length_le _ _) (by omega))]
        have hkeep : (rest.takeWhile isWordChar).filter (fun c => !isJsSpace c)
            = rest.takeWhile isWordChar :=
          List.filter_eq_self.mpr fun x hx => by
            simp [isWordChar_not_isJsSpace (List.mem_takeWhile_imp hx)]
        calc c :: rest.takeWhile isWordChar
              ++ (rest.dropWhile isWordChar).filter (fun c => !isJsSpace c)
            = c :: ((rest.takeWhile isWordChar).filter (fun c => !isJsSpace c)
                ++ (rest.dropWhile isWordChar).filter (fun c => !isJsSpace c)) := by
              rw [hkeep]; rfl
          _ = c :: rest.filter (fun c => !isJsSpace c) := by
              rw [← List.filter_append, List.takeWhile_append_dropWhile]
          _ = (c :: rest).filter (fun c => !isJsSpace c) := by
              rw [List.filter_cons_of_pos]
              simp [isWordChar_not_isJsSpace hw]
      · by_cases hs : isJsSpace c = true
        · rw [tokenizeLoop]
          simp only [hw, if_neg, Bool.not_eq_true, hs, if_pos,
            ih rest _ (by omega)]
          rw [List.filter_cons_of_neg]
          simp [hs]
        · rw [tokenizeLoop]
          simp only [hw, hs, if_neg, Bool.not_eq_true, List.map_cons,
            List.flatten_cons, ih rest _ (by omega)]
          rw [List.filter_cons_of_pos]
          · rfl
          · simp [hs]

theorem tokenizeLoop_mem :
    ∀ fuel (cs : List Char) (pos : Nat), cs.length ≤ fuel →
      ∀ t ∈ tokenizeLoop fuel cs pos,
        pos ≤ t.s ∧ t.s < t.e ∧ t.e ≤ pos + cs.length ∧
        t.text = (cs.drop (t.s - pos)).take (t.e - t.s) ∧ t.text ≠ [] := by
  intro fuel
  induction fuel with
  | zero =>
    intro cs pos h
    obtain rfl := List.length_eq_zero.mp (Nat.le_zero.mp h)
    simp [tokenizeLoop]
  | succ fuel ih =>
    intro cs pos h
    cases cs with
    | nil => simp [tokenizeLoop]
    | cons c rest =>
      simp only [List.length_cons] at h
      by_cases hw : isWordChar c = true
      · rw [tokenizeLoop]
        simp only [hw, if_pos]
        intro t ht
        have hlen := takeWhile_length_le isWordChar rest
        have hsplit := takeWhile_add_dropWhile_length isWordChar rest
        rcases List.mem_cons.mp ht with rfl | ht
        · refine ⟨Nat.le_refl _, by simp, ?_, ?_, by simp⟩
          · simp only [List.length_cons]
            omega
          · simp only [Nat.sub_self, List.drop_zero, Nat.add_sub_cancel_left,
              List.length_cons]
            rw [show (c :: rest).take ((rest.takeWhile isWordChar).length + 1)
                = c :: rest.take ((rest.takeWhile isWordChar).length) from rfl,
              take_takeWhile_length]
        · obtain ⟨h1, h2, h3, h4, h5⟩ := ih (rest.dropWhile isWordChar) _
            (le_trans (dropWhile_length_le _ _) (by omega)) t ht
          simp only [List.length_cons] at h1 h3 ⊢
          have hdw := dropWhile_length_le isWordChar rest
          refine ⟨by omega, h2, by omega, ?_, h5⟩
          rw [h4]
          congr 1
          have hts : (rest.takeWhile isWordChar).length + 1 ≤ t.s - pos := by omega
          rw [show (c :: rest) = (c :: rest.takeWhile isWordChar)
                ++ rest.dropWhile isWordChar by
              simp [List.takeWhile_append_dropWhile],
            drop_append_ge _ _ _ (by simpa using hts)]
          congr 1
          simp only [List.length_cons]
          omega
      · by_cases hs : isJsSpace c = true
        · rw [tokenizeLoop]
          simp only [hw, if_neg, Bool.not_eq_true, hs, if_pos]
          intro t ht
          obtain ⟨h1, h2, h3, h4, h5⟩ := ih rest _ (by omega) t ht
          simp only [List.length_cons]
          refine ⟨by omega, h2, by omega, ?_, h5⟩
          rw [h4]
          congr 1
          rw [show t.s - pos = (t.s - (pos + 1)) + 1 by omega, List.drop_succ_cons]
        · rw [tokenizeLoop]
          simp only [hw, hs, if_neg, Bool.not_eq_true]
          intro t ht
          rcases List.mem_cons.mp ht with rfl | ht
          · exact ⟨Nat.le_refl _, by simp, by simp, by simp, by simp⟩
          · obtain ⟨h1, h2, h3, h4, h5⟩ := ih rest _ (by omega) t ht
            simp only [List.length_cons]
            refine ⟨by omega, h2, by omega, ?_, h5⟩
            rw [h4]
            congr 1
            rw [show t.s - pos = (t.s - (pos + 1)) + 1 by omega,
              List.drop_succ_cons]

theorem tokenizeLoop_chain :
    ∀ fuel (cs : List Char) (pos : Nat), cs.length ≤ fuel →
      List.Chain' (fun a b => a.e ≤ b.s) (tokenizeLoop fuel cs pos) := by
  intro fuel
  induction fuel with
  | zero =>
    intro cs pos h
    obtain rfl := List.length_eq_zero.mp (Nat.le_zero.mp h)
    simp [tokenizeLoop]
  | succ fuel ih =>
    intro cs pos h
    cases cs with
    | nil => simp [tokenizeLoop]
    | cons c rest =>
      simp only [List.length_cons] at h
      by_cases hw : isWordChar c = true
      · rw [tokenizeLoop]
        simp only [hw, if_pos]
        have hdw : (rest.dropWhile isWordChar).length ≤ fuel :=
          le_trans (dropWhile_length_le _ _) (by omega)
        refine List.chain'_cons'.mpr ⟨?_, ih _ _ hdw⟩
        intro b hb
        exact (tokenizeLoop_mem fuel _ _ hdw b (List.mem_of_mem_head? hb)).1
      · by_cases hs : isJsSpace c = true
        · rw [tokenizeLoop]
          simp only [hw, if_neg, Bool.not_eq_true, hs, if_pos]
          exact ih rest _ (by omega)
        · rw [tokenizeLoop]
          simp only [hw, hs, if_neg, Bool.not_eq_true]
          refine List.chain'_cons'.mpr ⟨?_, ih rest _ (by omega)⟩
          intro b hb
          exact (tokenizeLoop_mem fuel _ _ (by omega) b
            (List.mem_of_mem_head? hb)).1

/-! ## Chunker (`Annotator.chunkDocument`)

The source loop `while (currentPos < text.length)` advances `currentPos`
by `min(maxCharBuffer, remaining)` per iteration.  The Lean model uses a
fuel counter of `text.length` iterations, which is proved sufficient
whenever `1 ≤ maxCharBuffer`; for `maxCharBuffer = 0` the source loop
never advances (it runs forever), and the fueled model stops early. -/

structure Chunk where
  text : List Char
  tokenOffset : Nat
  charOffset : Nat
deriving Repr, DecidableEq

def chunkLoop (text : List Char) (maxCharBuffer : Nat) :
    Nat → Nat → Nat → List Chunk
  | 0, _, _ => []
  | fuel + 1, currentPos, tokenOffset =>
    if currentPos < text.length then
      Chunk.mk (slice text currentPos (min (currentPos + maxCharBuffer) text.length))
          tokenOffset currentPos ::
        chunkLoop text maxCharBuffer fuel
          (min (currentPos + maxCharBuffer) text.length)
          (tokenOffset +
            (tokenize (slice text currentPos
              (min (currentPos + maxCharBuffer) text.length))).tokens.length)
    else []

def chunkDocument (text : List Char) (maxCharBuffer : Nat) : List Chunk :=
  chunkLoop text maxCharBuffer text.length 0 0

theorem slice_length (text : List Char) (s e : Nat) (hs : s ≤ e)
    (he : e ≤ text.length) : (slice text s e).length = e - s := by
  simp only [slice, List.length_take, List.length_drop]
  omega

theorem chunkLoop_spec (text : List Char) (b : Nat) (hb : 1 ≤ b) :
    ∀ fuel pos tok, text.length - pos ≤ fuel →
      ((chunkLoop text b fuel pos tok).map Chunk.text).flatten = text.drop pos
      ∧ ∀ k, k < (chunkLoop text b fuel pos tok).length →
          ((chunkLoop text b fuel pos tok).getD k (Chunk.mk [] 0 0)).charOffset
            = pos + (((chunkLoop text b fuel pos tok).take k).map
                (fun c => c.text.length)).sum
          ∧ ((chunkLoop text b fuel pos tok).getD k (Chunk.mk [] 0 0)).tokenOffset
            = tok + (((chunkLoop text b fuel pos tok).take k).map
                (fun c => (tokenize c.text).tokens.length)).sum
          ∧ ((chunkLoop text b fuel pos tok).getD k (Chunk.mk [] 0 0)).text
            = slice text
                ((chunkLoop text b fuel pos tok).getD k (Chunk.mk [] 0 0)).charOffset
                (min (((chunkLoop text b fuel pos tok).getD k
                    (Chunk.mk [] 0 0)).charOffset + b)
                  text.length) := by
  intro fuel
  induction fuel with
  | zero =>
    intro pos tok hfuel
    have hd : text.drop pos = [] := List.drop_eq_nil_iff.mpr (by omega)
    constructor
    · rw [chunkLoop, hd]
      rfl
    · intro k hk
      rw [chunkLoop] at hk
      simp at hk
  | succ fuel ih =>
    intro pos tok hfuel
    by_cases hpos : pos < text.length
    · have hlen : (slice text pos (min (pos + b) text.length)).length
          = min (pos + b) text.length - pos :=
        slice_length _ _ _ (by omega) (by omega)
      have hrec := ih (min (pos + b) text.length)
        (tok + (tokenize (slice text pos (min (pos + b) text.length))).tokens.length)
        (by omega)
      have heq : chunkLoop text b (fuel + 1) pos tok
          = Chunk.mk (slice text pos (min (pos + b) text.length)) tok pos ::
            chunkLoop text b fuel (min (pos + b) text.length)
              (tok + (tokenize (slice text pos
                (min (pos + b) text.length))).tokens.length) := by
        rw [chunkLoop, if_pos hpos]
      constructor
      · rw [heq, List.map_cons, List.flatten_cons, hrec.1]
        have hdd : text.drop (min (pos + b) text.length)
            = (text.drop pos).drop (min (pos + b) text.length - pos) := by
          rw [List.drop_drop]
          congr 1
          omega
        rw [hdd, slice]
        rw [slice] at hlen
        rw [← hlen]
        exact List.take_append_drop _ _
      · intro k hk
        rw [heq] at hk ⊢
        cases k with
        | zero => simp
        | succ k =>
          simp only [List.getD_cons_succ, List.take_succ_cons, List.map_cons,
            List.sum_cons]
          have hk' : k < (chunkLoop text b fuel (min (pos + b) text.length)
              (tok + (tokenize (slice text pos
                (min (pos + b) text.length))).tokens.length)).length := by
            simpa using hk
          obtain ⟨hc, ht, hs⟩ := hrec.2 k hk'
          refine ⟨?_, ?_, ?_⟩
          · rw [hc, hlen]; omega
          · rw [ht]; omega
          · exact hs
    · have hd : text.drop pos = [] := List.drop_eq_nil_iff.mpr (by omega)
      have heq : chunkLoop text b (fuel + 1) pos tok = [] := by
        rw [chunkLoop, if_neg hpos]
      constructor
      · rw [heq, hd]
        rfl
      · intro k hk
        rw [heq] at hk
        simp at hk

/-- Claim C9 (amended to `1 ≤ maxCharBuffer`): chunking produces consecutive
fixed-width windows whose texts concatenated in order reproduce the document
exactly; the `charOffset`s partition `[0, len)` with no gaps or overlaps (each
chunk's `charOffset` is the sum of the lengths of all preceding chunk texts,
each chunk is the window of the document starting there, and the lengths sum
to the document length); each chunk's `tokenOffset` is the sum of the token
counts of all preceding chunk texts. -/
theorem chunkDocument_partition (text : List Char) (b : Nat) (hb : 1 ≤ b) :
    ((chunkDocument text b).map Chunk.text).flatten = text
    ∧ (((chunkDocument text b).map (fun c => c.text.length)).sum = text.length)
    ∧ ∀ k, k < (chunkDocument text b).length →
        ((chunkDocument text b).getD k (Chunk.mk [] 0 0)).charOffset
          = (((chunkDocument text b).take k).map (fun c => c.text.length)).sum
        ∧ ((chunkDocument text b).getD k (Chunk.mk [] 0 0)).tokenOffset
          = (((chunkDocument text b).take k).map
              (fun c => (tokenize c.text).tokens.length)).sum
        ∧ ((chunkDocument text b).getD k (Chunk.mk [] 0 0)).text
          = slice text ((chunkDocument text b).getD k (Chunk.mk [] 0 0)).charOffset
              (min (((chunkDocument text b).getD k (Chunk.mk [] 0 0)).charOffset + b)
                text.length) := by
  have h := chunkLoop_spec text b hb text.length 0 0 (by omega)
  have hflat : ((chunkDocument text b).map Chunk.text).flatten = text := by
    simpa [chunkDocument] using h.1
  refine ⟨hflat, ?_, ?_⟩
  · have := congrArg List.length hflat
    simpa [List.length_flatten, Function.comp] using this
  · intro k hk
    have := h.2 k (by simpa [chunkDocument] using hk)
    simpa [chunkDocument] using this

theorem chunkDocument_partition_witness :
    ((chunkDocument (String.toList "Patient John Smith") 7).map Chunk.text).flatten
      = String.toList "Patient John Smith" :=
  (chunkDocument_partition _ 7 (by decide)).1

/-- Claim C9 counterexample: with `maxCharBuffer = 0` the source loop never
advances (`chunkEnd = currentPos`), so no chunk sequence concatenating to the
document is produced; in the fueled model the produced chunk texts do not
concatenate to the document. -/
theorem chunkDocument_zero_buffer_counterexample :
    ¬ ((chunkDocument ('a' :: []) 0).map Chunk.text).flatten = 'a' :: [] := by
  decide

/-- Claim C8: for every input text, `tokenize` returns three index-aligned
sequences of identical length; the reported char intervals are monotonically
non-decreasing and non-overlapping (each is non-empty, within bounds, and each
ends no later than the next starts); and concatenating the substrings of the
input at the reported char intervals in order equals the input text with all
whitespace removed. -/
theorem tokenize_parallel_reconstruction (text : List Char) :
    ((tokenize text).tokens.length = (tokenize text).tokenIntervals.length
      ∧ (tokenize text).tokens.length = (tokenize text).charIntervals.length)
    ∧ (∀ iv ∈ (tokenize text).charIntervals,
        iv.startPos < iv.endPos ∧ iv.endPos ≤ text.length)
    ∧ List.Chain' (fun a b => a.endPos ≤ b.startPos) (tokenize text).charIntervals
    ∧ ((tokenize text).charIntervals.map
        (fun iv => slice text iv.startPos iv.endPos)).flatten
      = text.filter (fun c => !isJsSpace c) := by
  refine ⟨⟨by simp [tokenize], by simp [tokenize]⟩, ?_, ?_, ?_⟩
  · intro iv hiv
    simp only [tokenize, List.mem_map] at hiv
    obtain ⟨t, ht, rfl⟩ := hiv
    obtain ⟨h1, h2, h3, _, _⟩ := tokenizeLoop_mem text.length text 0 (Nat.le_refl _) t ht
    refine ⟨h2, ?_⟩
    show t.e ≤ text.length
    omega
  · simp only [tokenize]
    rw [List.chain'_map]
    exact tokenizeLoop_chain text.length text 0 (Nat.le_refl _)
  · simp only [tokenize, List.map_map]
    have hmap : (tokenizeLoop text.length text 0).map
        ((fun iv : CharInterval => slice text iv.startPos iv.endPos)
          ∘ (fun t : Tok => CharInterval.mk t.s t.e))
        = (tokenizeLoop text.length text 0).map Tok.text := by
      refine List.map_congr_left fun t ht => ?_
      obtain ⟨_, _, _, h4, _⟩ := tokenizeLoop_mem text.length text 0 (Nat.le_refl _) t ht
      simp only [Function.comp, slice]
      rw [h4]
      simp
    rw [hmap, tokenizeLoop_join text.length text 0 (Nat.le_refl _)]

theorem tokenize_parallel_reconstruction_witness :
    ((tokenize (String.toList "Patient John Smith has diabetes.")).charIntervals.map
      (fun iv => slice (String.toList "Patient John Smith has diabetes.")
        iv.startPos iv.endPos)).flatten
      = (String.toList "Patient John Smith has diabetes.").filter
          (fun c => !isJsSpace c) :=
  (tokenize_parallel_reconstruction _).2.2.2

/-! ## Parsed values and extractions

The resolver deserializes the model output with `JSON.parse`/`yaml.load`
(both external libraries); the resulting untyped JavaScript value is
modelled by `JValue`.  Objects are association lists in insertion order
(property keys of a parsed object are unique). -/

inductive JValue where
  | null
  | bool (b : Bool)
  | num (n : Int)
  | str (s : List Char)
  | arr (xs : List JValue)
  | obj (kvs : List (List Char × JValue))

/-- `Extraction` (`types.ts`): optional fields that this core may leave
unset are `Option`s; `attributes` holds the raw object/array the resolver
copied out of the parsed record. -/
structure Extraction where
  extractionClass : List Char
  extractionText : List Char
  attributes : Option JValue
  charInterval : Option CharInterval
  alignmentStatus : Option AlignmentStatus
  extractionIndex : Nat

/-- An extraction as produced by `extractOrderedExtractions`: no interval,
no status yet. -/
def Extraction.raw (cls text : List Char) (attrs : Option JValue)
    (i : Nat) : Extraction :=
  ⟨cls, text, attrs, none, none, i⟩

/-! ## Aligner (`Resolver.align` and helpers) -/

/-- `FUZZY_ALIGNMENT_MIN_THRESHOLD = 0.75` (`resolver.ts`), the default
`fuzzyAlignmentThreshold`; `mkRat` keeps the value kernel-computable. -/
def FUZZY_ALIGNMENT_MIN_THRESHOLD : ℚ := mkRat 3 4

/-- The inner `for (j...)` equality test of `findExactMatch`:
`normalizeToken(sourceTokens[i + j]) !== normalizedExtraction[j]` breaks the
candidate.  Indexing is always in bounds when `i + len ≤ sourceTokens.length`. -/
def runMatchesAt (normExt srcToks : List (List Char)) (i : Nat) : Bool :=
  (List.range normExt.length).all fun j =>
    normalizeToken (srcToks.getD (i + j) []) == normExt.getD j []

/-- The scan loop of `findExactMatch`:
`for (let i = tokenOffset; i <= sourceTokens.length - normalizedExtraction.length; i++)`.
The fuel counts the loop iterations left: the loop body runs exactly while
`i ≤ sourceTokens.length - normalizedExtraction.length` (a JavaScript number
that may be negative), i.e. `srcToks.length + 1 - normExt.length - i` more
times, which `scanExact` supplies; structural recursion on the fuel keeps the
definition computable by the kernel. -/
def scanExactAux (normExt srcToks : List (List Char)) :
    Nat → Nat → Option (Nat × Nat)
  | 0, _ => none
  | fuel + 1, i =>
    if runMatchesAt normExt srcToks i then some (i, i + normExt.length)
    else scanExactAux normExt srcToks fuel (i + 1)

def scanExact (normExt srcToks : List (List Char)) (i : Nat) :
    Option (Nat × Nat) :=
  scanExactAux normExt srcToks (srcToks.length + 1 - normExt.length - i) i

def findExactMatch (extractionTokens srcToks : List (List Char))
    (tokenOffset : Nat) : Option (Nat × Nat) :=
  scanExact (extractionTokens.map normalizeToken) srcToks tokenOffset

/-- Position-aligned agreement count of `findFuzzyMatch`'s inner loop. -/
def fuzzyCountAt (normExt srcToks : List (List Char)) (i : Nat) : Nat :=
  ((List.range normExt.length).filter fun j =>
    normalizeToken (srcToks.getD (i + j) []) == normExt.getD j []).length

/-- `matches / normalizedExtraction.length >= threshold` as JavaScript
computes it: for an empty extraction the quotient is `NaN` and every `>=`
comparison with `NaN` is false.  The comparison is implemented by the
equivalent integer cross-multiplication (so the kernel can evaluate it);
`jsRatioGe_div_iff` below proves it equal to the source's division formula.
(For token counts far below 2^50 the double-precision quotient JavaScript
computes rounds to 0.75 only when the exact ratio crosses it, so the exact
rational comparison is faithful.) -/
def jsRatioGe (m len : Nat) (threshold : ℚ) : Bool :=
  if len = 0 then false
  else decide (threshold.num * (len : Int) ≤ (m : Int) * (threshold.den : Int))

theorem jsRatioGe_div_iff (m len : Nat) (t : ℚ) (h : len ≠ 0) :
    jsRatioGe m len t = true ↔ t ≤ (m : ℚ) / (len : ℚ) := by
  rw [jsRatioGe, if_neg h, decide_eq_true_iff]
  have hlen : (0 : ℚ) < (len : ℚ) := by
    have : 0 < len := Nat.pos_of_ne_zero h
    exact_mod_cast this
  have hden : (0 : ℚ) < (t.den : ℚ) := by
    have := t.den_pos
    exact_mod_cast this
  have hconv : t * (len : ℚ) = ((t.num : ℚ) * (len : ℚ)) / (t.den : ℚ) := by
    conv_lhs => rw [← Rat.num_div_den t]
    rw [div_mul_eq_mul_div]
  constructor
  · intro hle
    rw [le_div_iff₀ hlen, hconv, div_le_iff₀ hden]
    exact_mod_cast hle
  · intro hle
    rw [le_div_iff₀ hlen, hconv, div_le_iff₀ hden] at hle
    exact_mod_cast hle

/-- The scan loop of `findFuzzyMatch`, same range and fuel accounting as the
exact scan. -/
def scanFuzzyAux (normExt srcToks : List (List Char)) (threshold : ℚ) :
    Nat → Nat → Option (Nat × Nat)
  | 0, _ => none
  | fuel + 1, i =>
    if jsRatioGe (fuzzyCountAt normExt srcToks i) normExt.length threshold then
      some (i, i + normExt.length)
    else scanFuzzyAux normExt srcToks threshold fuel (i + 1)

def scanFuzzy (normExt srcToks : List (List Char)) (threshold : ℚ)
    (i : Nat) : Option (Nat × Nat) :=
  scanFuzzyAux normExt srcToks threshold (srcToks.length + 1 - normExt.length - i) i

def findFuzzyMatch (extractionTokens srcToks : List (List Char))
    (tokenOffset : Nat) (threshold : ℚ) : Option (Nat × Nat) :=
  scanFuzzy (extractionTokens.map normalizeToken) srcToks threshold tokenOffset

/-- `Resolver.tokenToCharInterval`.  The source re-tokenizes `sourceText`.
When `endToken = 0` JavaScript evaluates `charIntervals[-1].endPos` on
`undefined` and throws a `TypeError` (the `?? sourceText.length` fallbacks
guard the interval fields, which this tokenizer always sets, not the
indexing). -/
def tokenToCharInterval (startToken endToken : Nat) (sourceText : List Char)
    (charOffset : Nat) : Except String CharInterval :=
  let toks := tokenize sourceText
  let startPos := charOffset +
    (if startToken < toks.charIntervals.length then
      (toks.charIntervals.getD startToken (CharInterval.mk 0 0)).startPos
    else 0)
  if endToken ≤ toks.charIntervals.length then
    match endToken with
    | 0 => Except.error "TypeError: undefined charIntervals entry at index -1"
    | n + 1 =>
      Except.ok (CharInterval.mk startPos
        (charOffset + (toks.charIntervals.getD n (CharInterval.mk 0 0)).endPos))
  else Except.ok (CharInterval.mk startPos (charOffset + sourceText.length))

/-- `Resolver.alignSingleExtraction`: exact match first, then fuzzy when
enabled; `null` when neither phase matches. -/
def alignSingleExtraction (extraction : Extraction)
    (sourceTokens : List (List Char)) (sourceText : List Char)
    (tokenOffset charOffset : Nat) (enableFuzzyAlignment : Bool)
    (fuzzyAlignmentThreshold : ℚ) : Except String (Option Extraction) :=
  let extractionTokens := (tokenize extraction.extractionText).tokens
  match findExactMatch extractionTokens sourceTokens tokenOffset with
  | some m =>
    match tokenToCharInterval m.1 m.2 sourceText charOffset with
    | Except.ok ci =>
      Except.ok (some { extraction with
        charInterval := some ci
        alignmentStatus := some AlignmentStatus.MATCH_EXACT })
    | Except.error e => Except.error e
  | none =>
    if enableFuzzyAlignment then
      match findFuzzyMatch extractionTokens sourceTokens tokenOffset
          fuzzyAlignmentThreshold with
      | some m =>
        match tokenToCharInterval m.1 m.2 sourceText charOffset with
        | Except.ok ci =>
          Except.ok (some { extraction with
            charInterval := some ci
            alignmentStatus := some AlignmentStatus.MATCH_FUZZY })
        | Except.error e => Except.error e
      | none => Except.ok none
    else Except.ok none

/-- The `for (const extraction of extractions)` loop of `Resolver.align`,
pushing only extractions that aligned.  A thrown `TypeError` propagates. -/
def alignLoop (sourceTokens : List (List Char)) (sourceText : List Char)
    (tokenOffset charOffset : Nat) (enableFuzzyAlignment : Bool)
    (fuzzyAlignmentThreshold : ℚ) :
    List Extraction → Except String (List Extraction)
  | [] => Except.ok []
  | e :: rest =>
    match alignSingleExtraction e sourceTokens sourceText tokenOffset
        charOffset enableFuzzyAlignment fuzzyAlignmentThreshold with
    | Except.error msg => Except.error msg
    | Except.ok r =>
      match alignLoop sourceTokens sourceText tokenOffset charOffset
          enableFuzzyAlignment fuzzyAlignmentThreshold rest with
      | Except.error msg => Except.error msg
      | Except.ok others =>
        match r with
        | some e' => Except.ok (e' :: others)
        | none => Except.ok others

/-- `Resolver.align`: tokenize the source window once, then align each
extraction in input order.  Defaults at the orchestrator's call sites are
`charOffset = chunk.charOffset`, `enableFuzzyAlignment = true`,
`fuzzyAlignmentThreshold = 0.75`. -/
def align (extractions : List Extraction) (sourceText : List Char)
    (tokenOffset charOffset : Nat) (enableFuzzyAlignment : Bool)
    (fuzzyAlignmentThreshold : ℚ) : Except String (List Extraction) :=
  alignLoop (tokenize sourceText).tokens sourceText tokenOffset charOffset
    enableFuzzyAlignment fuzzyAlignmentThreshold extractions

/-! ### The scan loops return the leftmost hit at or after the offset -/

theorem scanExactAux_spec (normExt srcToks : List (List Char)) :
    ∀ fuel i, fuel = srcToks.length + 1 - normExt.length - i →
      (∀ m, scanExactAux normExt srcToks fuel i = some m →
        m.2 = m.1 + normExt.length ∧ i ≤ m.1 ∧
        (m.1 : Int) ≤ (srcToks.length : Int) - (normExt.length : Int) ∧
        runMatchesAt normExt srcToks m.1 = true ∧
        ∀ j, i ≤ j → j < m.1 → runMatchesAt normExt srcToks j = false)
      ∧ (scanExactAux normExt srcToks fuel i = none →
        ∀ j, i ≤ j →
          (j : Int) ≤ (srcToks.length : Int) - (normExt.length : Int) →
          runMatchesAt normExt srcToks j = false) := by
  intro fuel
  induction fuel with
  | zero =>
    intro i hfuel
    refine ⟨fun m hm => (by cases hm), fun _ j h1 h2 => absurd h2 ?_⟩
    omega
  | succ fuel ih =>
    intro i hfuel
    by_cases hrun : runMatchesAt normExt srcToks i = true
    · rw [scanExactAux, if_pos hrun]
      constructor
      · intro m hm
        cases hm
        exact ⟨rfl, Nat.le_refl _, by omega, hrun,
          fun j h1 h2 => absurd h1 (by omega)⟩
      · intro h
        cases h
    · rw [scanExactAux, if_neg hrun]
      have ihs := ih (i + 1) (by omega)
      refine ⟨fun m hm => ?_, fun hnone j h1 h2 => ?_⟩
      · obtain ⟨p1, p2, p3, p4, p5⟩ := ihs.1 m hm
        refine ⟨p1, by omega, p3, p4, fun j h1 h2 => ?_⟩
        rcases Nat.eq_or_lt_of_le h1 with rfl | h1'
        · simpa using hrun
        · exact p5 j (by omega) h2
      · rcases Nat.eq_or_lt_of_le h1 with rfl | h1'
        · simpa using hrun
        · exact ihs.2 hnone j (by omega) h2

theorem scanExact_spec (normExt srcToks : List (List Char)) (i₀ : Nat) :
    (∀ m, scanExact normExt srcToks i₀ = some m →
      m.2 = m.1 + normExt.length ∧ i₀ ≤ m.1 ∧
      (m.1 : Int) ≤ (srcToks.length : Int) - (normExt.length : Int) ∧
      runMatchesAt normExt srcToks m.1 = true ∧
      ∀ j, i₀ ≤ j → j < m.1 → runMatchesAt normExt srcToks j = false)
    ∧ (scanExact normExt srcToks i₀ = none →
      ∀ j, i₀ ≤ j → (j : Int) ≤ (srcToks.length : Int) - (normExt.length : Int) →
        runMatchesAt normExt srcToks j = false) :=
  scanExactAux_spec normExt srcToks _ i₀ rfl

theorem scanFuzzyAux_spec (normExt srcToks : List (List Char)) (threshold : ℚ) :
    ∀ fuel i, fuel = srcToks.length + 1 - normExt.length - i →
      (∀ m, scanFuzzyAux normExt srcToks threshold fuel i = some m →
        m.2 = m.1 + normExt.length ∧ i ≤ m.1 ∧
        (m.1 : Int) ≤ (srcToks.length : Int) - (normExt.length : Int) ∧
        jsRatioGe (fuzzyCountAt normExt srcToks m.1) normExt.length threshold
          = true ∧
        ∀ j, i ≤ j → j < m.1 →
          jsRatioGe (fuzzyCountAt normExt srcToks j) normExt.length threshold
            = false)
      ∧ (scanFuzzyAux normExt srcToks threshold fuel i = none →
        ∀ j, i ≤ j →
          (j : Int) ≤ (srcToks.length : Int) - (normExt.length : Int) →
          jsRatioGe (fuzzyCountAt normExt srcToks j) normExt.length threshold
            = false) := by
  intro fuel
  induction fuel with
  | zero =>
    intro i hfuel
    refine ⟨fun m hm => (by cases hm), fun _ j h1 h2 => absurd h2 ?_⟩
    omega
  | succ fuel ih =>
    intro i hfuel
    by_cases hrun : jsRatioGe (fuzzyCountAt normExt srcToks i) normExt.length
        threshold = true
    · rw [scanFuzzyAux, if_pos hrun]
      constructor
      · intro m hm
        cases hm
        exact ⟨rfl, Nat.le_refl _, by omega, hrun,
          fun j h1 h2 => absurd h1 (by omega)⟩
      · intro h
        cases h
    · rw [scanFuzzyAux, if_neg hrun]
      have ihs := ih (i + 1) (by omega)
      refine ⟨fun m hm => ?_, fun hnone j h1 h2 => ?_⟩
      · obtain ⟨p1, p2, p3, p4, p5⟩ := ihs.1 m hm
        refine ⟨p1, by omega, p3, p4, fun j h1 h2 => ?_⟩
        rcases Nat.eq_or_lt_of_le h1 with rfl | h1'
        · simpa using hrun
        · exact p5 j (by omega) h2
      · rcases Nat.eq_or_lt_of_le h1 with rfl | h1'
        · simpa using hrun
        · exact ihs.2 hnone j (by omega) h2

theorem scanFuzzy_spec (normExt srcToks : List (List Char)) (threshold : ℚ)
    (i₀ : Nat) :
    (∀ m, scanFuzzy normExt srcToks threshold i₀ = some m →
      m.2 = m.1 + normExt.length ∧ i₀ ≤ m.1 ∧
      (m.1 : Int) ≤ (srcToks.length : Int) - (normExt.length : Int) ∧
      jsRatioGe (fuzzyCountAt normExt srcToks m.1) normExt.length threshold = true ∧
      ∀ j, i₀ ≤ j → j < m.1 →
        jsRatioGe (fuzzyCountAt normExt srcToks j) normExt.length threshold = false)
    ∧ (scanFuzzy normExt srcToks threshold i₀ = none →
      ∀ j, i₀ ≤ j → (j : Int) ≤ (srcToks.length : Int) - (normExt.length : Int) →
        jsRatioGe (fuzzyCountAt normExt srcToks j) normExt.length threshold
          = false) :=
  scanFuzzyAux_spec normExt srcToks threshold _ i₀ rfl

/-! ### Behaviour of `alignSingleExtraction` and the `align` loop -/

theorem scanExact_none_of_neg (normExt srcToks : List (List Char)) (i : Nat)
    (h : (srcToks.length : Int) - (normExt.length : Int) < (i : Int)) :
    scanExact normExt srcToks i = none := by
  show scanExactAux normExt srcToks (srcToks.length + 1 - normExt.length - i) i
    = none
  rw [show srcToks.length + 1 - normExt.length - i = 0 from by omega]
  rfl

theorem scanFuzzy_none_of_neg (normExt srcToks : List (List Char))
    (threshold : ℚ) (i : Nat)
    (h : (srcToks.length : Int) - (normExt.length : Int) < (i : Int)) :
    scanFuzzy normExt srcToks threshold i = none := by
  show scanFuzzyAux normExt srcToks threshold
    (srcToks.length + 1 - normExt.length - i) i = none
  rw [show srcToks.length + 1 - normExt.length - i = 0 from by omega]
  rfl

theorem tokenToCharInterval_ok (s e : Nat) (src : List Char) (co : Nat)
    (h : 1 ≤ e) : ∃ ci, tokenToCharInterval s e src co = Except.ok ci := by
  cases e with
  | zero => omega
  | succ n =>
    simp only [tokenToCharInterval]
    split
    · exact ⟨_, rfl⟩
    · exact ⟨_, rfl⟩

theorem tokenToCharInterval_eval (src : List Char) (co s n : Nat)
    (hs : s < (tokenize src).charIntervals.length)
    (he : n + 1 ≤ (tokenize src).charIntervals.length) :
    tokenToCharInterval s (n + 1) src co
      = Except.ok (CharInterval.mk
          (co + ((tokenize src).charIntervals.getD s (CharInterval.mk 0 0)).startPos)
          (co + ((tokenize src).charIntervals.getD n (CharInterval.mk 0 0)).endPos)) := by
  simp only [tokenToCharInterval]
  rw [if_pos hs, if_pos he]

/-- Unfolding of `alignSingleExtraction` when the exact phase hits. -/
theorem alignSingle_exact_eq (e : Extraction) (srcToks : List (List Char))
    (src : List Char) (off co : Nat) (fz : Bool) (thr : ℚ)
    (m : Nat × Nat)
    (hm : findExactMatch (tokenize e.extractionText).tokens srcToks off = some m)
    (ci : CharInterval)
    (hci : tokenToCharInterval m.1 m.2 src co = Except.ok ci) :
    alignSingleExtraction e srcToks src off co fz thr
      = Except.ok (some { e with
          charInterval := some ci
          alignmentStatus := some AlignmentStatus.MATCH_EXACT }) := by
  simp only [alignSingleExtraction, hm, hci]

/-- Unfolding of `alignSingleExtraction` when only the fuzzy phase hits. -/
theorem alignSingle_fuzzy_eq (e : Extraction) (srcToks : List (List Char))
    (src : List Char) (off co : Nat) (thr : ℚ) (m : Nat × Nat)
    (hex : findExactMatch (tokenize e.extractionText).tokens srcToks off = none)
    (hm : findFuzzyMatch (tokenize e.extractionText).tokens srcToks off thr
      = some m)
    (ci : CharInterval)
    (hci : tokenToCharInterval m.1 m.2 src co = Except.ok ci) :
    alignSingleExtraction e srcToks src off co true thr
      = Except.ok (some { e with
          charInterval := some ci
          alignmentStatus := some AlignmentStatus.MATCH_FUZZY }) := by
  simp only [alignSingleExtraction, hex, hm, hci, if_true]

/-- Unfolding of `alignSingleExtraction` when neither phase hits (or the
fuzzy phase is disabled). -/
theorem alignSingle_none_eq (e : Extraction) (srcToks : List (List Char))
    (src : List Char) (off co : Nat) (fz : Bool) (thr : ℚ)
    (hex : findExactMatch (tokenize e.extractionText).tokens srcToks off = none)
    (hfz : fz = false ∨
      findFuzzyMatch (tokenize e.extractionText).tokens srcToks off thr = none) :
    alignSingleExtraction e srcToks src off co fz thr = Except.ok none := by
  rcases hfz with rfl | hf
  · simp only [alignSingleExtraction, hex, Bool.false_eq_true, if_false]
  · cases fz
    · simp only [alignSingleExtraction, hex, Bool.false_eq_true, if_false]
    · simp only [alignSingleExtraction, hex, hf, if_true]

/-- Every aligned extraction carries an interval and an exact/fuzzy status,
and keeps the other fields of its input extraction. -/
theorem alignSingle_ok_some (e : Extraction) (srcToks : List (List Char))
    (src : List Char) (off co : Nat) (fz : Bool) (thr : ℚ) (e' : Extraction)
    (h : alignSingleExtraction e srcToks src off co fz thr
      = Except.ok (some e')) :
    (e'.alignmentStatus = some AlignmentStatus.MATCH_EXACT ∨
      e'.alignmentStatus = some AlignmentStatus.MATCH_FUZZY)
    ∧ e'.charInterval.isSome = true
    ∧ e'.extractionClass = e.extractionClass
    ∧ e'.extractionText = e.extractionText
    ∧ e'.extractionIndex = e.extractionIndex := by
  cases hex : findExactMatch (tokenize e.extractionText).tokens srcToks off with
  | some m =>
    cases hci : tokenToCharInterval m.1 m.2 src co with
    | ok ci =>
      rw [alignSingle_exact_eq e srcToks src off co fz thr m hex ci hci] at h
      cases h
      exact ⟨Or.inl rfl, rfl, rfl, rfl, rfl⟩
    | error msg =>
      have heq : alignSingleExtraction e srcToks src off co fz thr
          = Except.error msg := by
        simp only [alignSingleExtraction, hex, hci]
      rw [heq] at h
      cases h
  | none =>
    cases fz with
    | false =>
      rw [alignSingle_none_eq _ _ _ _ _ _ _ hex (Or.inl rfl)] at h
      simp at h
    | true =>
      cases hf : findFuzzyMatch (tokenize e.extractionText).tokens srcToks off
          thr with
      | some m =>
        cases hci : tokenToCharInterval m.1 m.2 src co with
        | ok ci =>
          rw [alignSingle_fuzzy_eq e srcToks src off co thr m hex hf ci hci] at h
          cases h
          exact ⟨Or.inr rfl, rfl, rfl, rfl, rfl⟩
        | error msg =>
          have heq : alignSingleExtraction e srcToks src off co true thr
              = Except.error msg := by
            simp only [alignSingleExtraction, hex, hf, hci, if_true]
          rw [heq] at h
          cases h
      | none =>
        rw [alignSingle_none_eq _ _ _ _ _ _ _ hex (Or.inr hf)] at h
        simp at h

/-- `alignSingleExtraction` only throws through `tokenToCharInterval`; with a
non-empty extraction token list every found window ends at a positive token
index, so no `TypeError` can occur. -/
theorem alignSingle_no_throw (e : Extraction) (srcToks : List (List Char))
    (src : List Char) (off co : Nat) (fz : Bool) (thr : ℚ)
    (hne : (tokenize e.extractionText).tokens ≠ []) :
    ∃ r, alignSingleExtraction e srcToks src off co fz thr = Except.ok r := by
  have hlen : 1 ≤ (tokenize e.extractionText).tokens.length :=
    Nat.one_le_iff_ne_zero.mpr (fun h0 => hne (List.length_eq_zero.mp h0))
  cases hex : findExactMatch (tokenize e.extractionText).tokens srcToks off with
  | some m =>
    obtain ⟨p1, _, _, _, _⟩ := (scanExact_spec _ _ _).1 m hex
    simp only [List.length_map] at p1
    obtain ⟨ci, hci⟩ := tokenToCharInterval_ok m.1 m.2 src co (by omega)
    exact ⟨_, alignSingle_exact_eq e srcToks src off co fz thr m hex ci hci⟩
  | none =>
    cases fz with
    | false => exact ⟨none, alignSingle_none_eq _ _ _ _ _ _ _ hex (Or.inl rfl)⟩
    | true =>
      cases hf : findFuzzyMatch (tokenize e.extractionText).tokens srcToks off
          thr with
      | some m =>
        obtain ⟨p1, _, _, _, _⟩ := (scanFuzzy_spec _ _ _ _).1 m hf
        simp only [List.length_map] at p1
        obtain ⟨ci, hci⟩ := tokenToCharInterval_ok m.1 m.2 src co (by omega)
        exact ⟨_, alignSingle_fuzzy_eq e srcToks src off co thr m hex hf ci hci⟩
      | none =>
        exact ⟨none, alignSingle_none_eq _ _ _ _ _ _ _ hex (Or.inr hf)⟩

/-- Every element of a successful `align` run comes from aligning one of the
input extractions. -/
theorem alignLoop_mem (srcToks : List (List Char)) (src : List Char)
    (off co : Nat) (fz : Bool) (thr : ℚ) :
    ∀ (exts l : List Extraction),
      alignLoop srcToks src off co fz thr exts = Except.ok l →
      ∀ e' ∈ l, ∃ e ∈ exts,
        alignSingleExtraction e srcToks src off co fz thr
          = Except.ok (some e') := by
  intro exts
  induction exts with
  | nil =>
    intro l h e' he'
    cases h
    simp at he'
  | cons e rest ih =>
    intro l h e' he'
    rw [alignLoop] at h
    cases hs : alignSingleExtraction e srcToks src off co fz thr with
    | error msg => rw [hs] at h; cases h
    | ok r =>
      rw [hs] at h
      cases hrest : alignLoop srcToks src off co fz thr rest with
      | error msg => rw [hrest] at h; cases h
      | ok others =>
        rw [hrest] at h
        cases r with
        | some e₀ =>
          cases h
          rcases List.mem_cons.mp he' with rfl | he''
          · exact ⟨e, List.mem_cons_self .., hs⟩
          · obtain ⟨e₁, he₁, hx⟩ := ih others hrest e' he''
            exact ⟨e₁, List.mem_cons_of_mem _ he₁, hx⟩
        | none =>
          cases h
          obtain ⟨e₁, he₁, hx⟩ := ih l hrest e' he'
          exact ⟨e₁, List.mem_cons_of_mem _ he₁, hx⟩

/-- If every extraction aligns without throwing, the loop returns normally
with at most one output per input. -/
theorem alignLoop_ok (srcToks : List (List Char)) (src : List Char)
    (off co : Nat) (fz : Bool) (thr : ℚ) :
    ∀ exts : List Extraction,
      (∀ e ∈ exts, ∃ r, alignSingleExtraction e srcToks src off co fz thr
        = Except.ok r) →
      ∃ l, alignLoop srcToks src off co fz thr exts = Except.ok l
        ∧ l.length ≤ exts.length := by
  intro exts
  induction exts with
  | nil => exact fun _ => ⟨[], rfl, Nat.le_refl _⟩
  | cons e rest ih =>
    intro h
    obtain ⟨r, hr⟩ := h e (List.mem_cons_self ..)
    obtain ⟨l, hl, hlen⟩ := ih fun e' he' => h e' (List.mem_cons_of_mem _ he')
    rw [alignLoop, hr, hl]
    cases r with
    | some e₀ => exact ⟨e₀ :: l, rfl, by simpa using hlen⟩
    | none => exact ⟨l, rfl, by simp; omega⟩

/-- If every extraction aligns to `null`, the loop returns the empty list. -/
theorem alignLoop_nil (srcToks : List (List Char)) (src : List Char)
    (off co : Nat) (fz : Bool) (thr : ℚ) :
    ∀ exts : List Extraction,
      (∀ e ∈ exts, alignSingleExtraction e srcToks src off co fz thr
        = Except.ok none) →
      alignLoop srcToks src off co fz thr exts = Except.ok [] := by
  intro exts
  induction exts with
  | nil => exact fun _ => rfl
  | cons e rest ih =>
    intro h
    rw [alignLoop, h e (List.mem_cons_self ..),
      ih fun e' he' => h e' (List.mem_cons_of_mem _ he')]

theorem runMatchesAt_iff (normExt srcToks : List (List Char)) (i : Nat) :
    runMatchesAt normExt srcToks i = true ↔
      ∀ j < normExt.length,
        normalizeToken (srcToks.getD (i + j) []) = normExt.getD j [] := by
  simp [runMatchesAt, List.all_eq_true, List.mem_range]

theorem getD_map_lt (f : α → β) (l : List α) (j : Nat)
    (hj : j < l.length) (d : β) (d' : α) :
    (l.map f).getD j d = f (l.getD j d') := by
  simp [List.getD_eq_getElem?_getD, List.getElem?_map,
    List.getElem?_eq_getElem hj]

theorem tokenize_lengths_eq (src : List Char) :
    (tokenize src).charIntervals.length = (tokenize src).tokens.length := by
  simp [tokenize]

/-- Claim C2: the aligner scans the chunk-local token array starting at
index `tokenOffset`: no returned match starts before `tokenOffset`, and as
soon as `tokenOffset` exceeds the number of window tokens minus the number
of extraction tokens, neither phase can match, the extraction aligns to
`null`, and `align` drops it; when this holds for every extraction the
whole result is empty. -/
theorem align_offset_bound :
    (∀ (extractionTokens srcToks : List (List Char)) (off : Nat)
        (m : Nat × Nat),
      findExactMatch extractionTokens srcToks off = some m → off ≤ m.1)
    ∧ (∀ (extractionTokens srcToks : List (List Char)) (off : Nat) (thr : ℚ)
        (m : Nat × Nat),
      findFuzzyMatch extractionTokens srcToks off thr = some m → off ≤ m.1)
    ∧ (∀ (e : Extraction) (srcToks : List (List Char)) (src : List Char)
        (off co : Nat) (fz : Bool) (thr : ℚ),
      (srcToks.length : Int) - ((tokenize e.extractionText).tokens.length : Int)
          < (off : Int) →
      alignSingleExtraction e srcToks src off co fz thr = Except.ok none)
    ∧ (∀ (exts : List Extraction) (src : List Char) (off co : Nat) (fz : Bool)
        (thr : ℚ),
      (∀ e ∈ exts, ((tokenize src).tokens.length : Int)
          - ((tokenize e.extractionText).tokens.length : Int) < (off : Int)) →
      align exts src off co fz thr = Except.ok []) := by
  have hnone : ∀ (e : Extraction) (srcToks : List (List Char)) (src : List Char)
      (off co : Nat) (fz : Bool) (thr : ℚ),
      (srcToks.length : Int) - ((tokenize e.extractionText).tokens.length : Int)
          < (off : Int) →
      alignSingleExtraction e srcToks src off co fz thr = Except.ok none := by
    intro e srcToks src off co fz thr hb
    refine alignSingle_none_eq e srcToks src off co fz thr ?_ (Or.inr ?_)
    · exact scanExact_none_of_neg _ _ _ (by simpa [List.length_map] using hb)
    · exact scanFuzzy_none_of_neg _ _ _ _ (by simpa [List.length_map] using hb)
  refine ⟨?_, ?_, hnone, ?_⟩
  · intro et st off m hm
    exact ((scanExact_spec _ _ _).1 m hm).2.1
  · intro et st off thr m hm
    exact ((scanFuzzy_spec _ _ _ _).1 m hm).2.1
  · intro exts src off co fz thr h
    exact alignLoop_nil _ src off co fz thr exts
      (fun e he => hnone e _ src off co fz thr (h e he))

theorem align_offset_bound_witness :
    align [Extraction.raw (String.toList "person") (String.toList "John") none 0]
      (String.toList "Dr. Smith") 9 0 true FUZZY_ALIGNMENT_MIN_THRESHOLD = Except.ok [] :=
  align_offset_bound.2.2.2 _ _ 9 0 true FUZZY_ALIGNMENT_MIN_THRESHOLD (by decide)

/-- Claim C5 (amended: every extraction's text must tokenize to at least one
token): `align` then returns normally; each extraction either receives a
char interval and an alignment status or is silently omitted, and a miss is
not an error.  (With an extraction whose text has no tokens, the exact
phase matches an empty window and `tokenToCharInterval` throws a
`TypeError` on `charIntervals[-1]` — see the counterexample.) -/
theorem align_never_throws (exts : List Extraction) (src : List Char)
    (off co : Nat) (fz : Bool) (thr : ℚ)
    (h : ∀ e ∈ exts, (tokenize e.extractionText).tokens ≠ []) :
    ∃ l, align exts src off co fz thr = Except.ok l
      ∧ l.length ≤ exts.length
      ∧ ∀ e' ∈ l, e'.charInterval.isSome = true
          ∧ e'.alignmentStatus.isSome = true := by
  obtain ⟨l, hl, hlen⟩ := alignLoop_ok _ src off co fz thr exts
    (fun e he => alignSingle_no_throw e _ src off co fz thr (h e he))
  refine ⟨l, hl, hlen, fun e' he' => ?_⟩
  obtain ⟨e, hmem, hx⟩ := alignLoop_mem _ src off co fz thr exts l hl e' he'
  obtain ⟨hst, hci, _⟩ := alignSingle_ok_some e _ src off co fz thr e' hx
  refine ⟨hci, ?_⟩
  rcases hst with h | h <;> simp [h]

theorem align_never_throws_witness :
    ∃ l, align
        [Extraction.raw (String.toList "person") (String.toList "John Smith")
          none 0]
        (String.toList "Patient John Smith has diabetes.") 0 0 true FUZZY_ALIGNMENT_MIN_THRESHOLD
      = Except.ok l
      ∧ l.length ≤ 1
      ∧ ∀ e' ∈ l, e'.charInterval.isSome = true
          ∧ e'.alignmentStatus.isSome = true :=
  align_never_throws _ _ 0 0 true FUZZY_ALIGNMENT_MIN_THRESHOLD (by decide)

/-- Claim C5 counterexample: an extraction whose text tokenizes to zero
tokens (here the empty string) makes `align` throw: the exact phase matches
the empty window `[0, 0)` and `tokenToCharInterval` evaluates
`charIntervals[0 - 1].endPos` on `undefined`. -/
theorem align_empty_text_throws :
    align [Extraction.raw (String.toList "x") [] none 0] (String.toList "abc")
      0 0 true FUZZY_ALIGNMENT_MIN_THRESHOLD
      = Except.error "TypeError: undefined charIntervals entry at index -1" :=
  rfl

/-- Claim C10: the exact phase is tried first and its leftmost hit wins with
status `match_exact` (a hit is exactly a position-wise normalized-token run
match); only when no exact match exists and fuzzy alignment is enabled does
the first same-length window whose position-aligned overlap ratio meets the
threshold win, with status `match_fuzzy`; with the fuzzy phase disabled a
miss in the exact phase aligns to `null`; and no extraction ever leaves
`align` with status `match_greater` or `match_lesser`. -/
theorem align_exact_first_leftmost :
    (∀ (extractionTokens srcToks : List (List Char)) (off : Nat)
        (m : Nat × Nat),
      findExactMatch extractionTokens srcToks off = some m ↔
        (m.2 = m.1 + extractionTokens.length ∧ off ≤ m.1 ∧
          (m.1 : Int) ≤ (srcToks.length : Int) - (extractionTokens.length : Int) ∧
          runMatchesAt (extractionTokens.map normalizeToken) srcToks m.1 = true ∧
          ∀ j, off ≤ j → j < m.1 →
            runMatchesAt (extractionTokens.map normalizeToken) srcToks j
              = false))
    ∧ (∀ (extractionTokens srcToks : List (List Char)) (off : Nat) (thr : ℚ)
        (m : Nat × Nat),
      findFuzzyMatch extractionTokens srcToks off thr = some m ↔
        (m.2 = m.1 + extractionTokens.length ∧ off ≤ m.1 ∧
          (m.1 : Int) ≤ (srcToks.length : Int) - (extractionTokens.length : Int) ∧
          jsRatioGe (fuzzyCountAt (extractionTokens.map normalizeToken) srcToks
            m.1) extractionTokens.length thr = true ∧
          ∀ j, off ≤ j → j < m.1 →
            jsRatioGe (fuzzyCountAt (extractionTokens.map normalizeToken)
              srcToks j) extractionTokens.length thr = false))
    ∧ (∀ (e : Extraction) (srcToks : List (List Char)) (src : List Char)
        (off co : Nat) (fz : Bool) (thr : ℚ) (m : Nat × Nat)
        (ci : CharInterval),
      findExactMatch (tokenize e.extractionText).tokens srcToks off = some m →
      tokenToCharInterval m.1 m.2 src co = Except.ok ci →
      alignSingleExtraction e srcToks src off co fz thr
        = Except.ok (some { e with
            charInterval := some ci
            alignmentStatus := some AlignmentStatus.MATCH_EXACT }))
    ∧ (∀ (e : Extraction) (srcToks : List (List Char)) (src : List Char)
        (off co : Nat) (thr : ℚ) (m : Nat × Nat) (ci : CharInterval),
      findExactMatch (tokenize e.extractionText).tokens srcToks off = none →
      findFuzzyMatch (tokenize e.extractionText).tokens srcToks off thr
        = some m →
      tokenToCharInterval m.1 m.2 src co = Except.ok ci →
      alignSingleExtraction e srcToks src off co true thr
        = Except.ok (some { e with
            charInterval := some ci
            alignmentStatus := some AlignmentStatus.MATCH_FUZZY }))
    ∧ (∀ (e : Extraction) (srcToks : List (List Char)) (src : List Char)
        (off co : Nat) (thr : ℚ),
      findExactMatch (tokenize e.extractionText).tokens srcToks off = none →
      alignSingleExtraction e srcToks src off co false thr = Except.ok none)
    ∧ (∀ (exts : List Extraction) (src : List Char) (off co : Nat) (fz : Bool)
        (thr : ℚ) (l : List Extraction),
      align exts src off co fz thr = Except.ok l →
      ∀ e' ∈ l, e'.alignmentStatus ≠ some AlignmentStatus.MATCH_GREATER
        ∧ e'.alignmentStatus ≠ some AlignmentStatus.MATCH_LESSER) := by
  refine ⟨?_, ?_, ?_, ?_, ?_, ?_⟩
  · intro et st off m
    constructor
    · intro hm
      obtain ⟨p1, p2, p3, p4, p5⟩ := (scanExact_spec _ _ _).1 m hm
      simp only [List.length_map] at p1 p3
      exact ⟨p1, p2, p3, p4, p5⟩
    · rintro ⟨p1, p2, p3, p4, p5⟩
      cases hm : findExactMatch et st off with
      | none =>
        exfalso
        have := (scanExact_spec _ _ _).2 hm m.1 p2 (by simpa [List.length_map])
        simp [this] at p4
      | some m' =>
        obtain ⟨q1, q2, q3, q4, q5⟩ := (scanExact_spec _ _ _).1 m' hm
        have h1 : m'.1 = m.1 := by
          rcases Nat.lt_trichotomy m'.1 m.1 with h | h | h
          · have := p5 m'.1 q2 h
            simp [this] at q4
          · exact h
          · exfalso
            have := q5 m.1 p2 h
            simp [this] at p4
        have h2 : m'.2 = m.2 := by
          rw [q1, h1]
          simp only [List.length_map]
          exact p1.symm
        cases m
        cases m'
        simp_all
  · intro et st off thr m
    constructor
    · intro hm
      obtain ⟨p1, p2, p3, p4, p5⟩ := (scanFuzzy_spec _ _ _ _).1 m hm
      simp only [List.length_map] at p1 p3 p4 p5
      exact ⟨p1, p2, p3, p4, p5⟩
    · rintro ⟨p1, p2, p3, p4, p5⟩
      cases hm : findFuzzyMatch et st off thr with
      | none =>
        exfalso
        have := (scanFuzzy_spec _ _ _ _).2 hm m.1 p2 (by simpa [List.length_map])
        simp only [List.length_map] at this
        simp [this] at p4
      | some m' =>
        obtain ⟨q1, q2, q3, q4, q5⟩ := (scanFuzzy_spec _ _ _ _).1 m' hm
        simp only [List.length_map] at q4 q5
        have h1 : m'.1 = m.1 := by
          rcases Nat.lt_trichotomy m'.1 m.1 with h | h | h
          · have := p5 m'.1 q2 h
            simp [this] at q4
          · exact h
          · exfalso
            have := q5 m.1 p2 h
            simp [this] at p4
        have h2 : m'.2 = m.2 := by
          rw [q1, h1]
          simp only [List.length_map]
          exact p1.symm
        cases m
        cases m'
        simp_all
  · intro e st src off co fz thr m ci hm hci
    exact alignSingle_exact_eq e st src off co fz thr m hm ci hci
  · intro e st src off co thr m ci hex hm hci
    exact alignSingle_fuzzy_eq e st src off co thr m hex hm ci hci
  · intro e st src off co thr hex
    exact alignSingle_none_eq e st src off co false thr hex (Or.inl rfl)
  · intro exts src off co fz thr l hl e' he'
    obtain ⟨e, hmem, hx⟩ := alignLoop_mem _ src off co fz thr exts l hl e' he'
    obtain ⟨hst, _, _⟩ := alignSingle_ok_some e _ src off co fz thr e' hx
    rcases hst with h | h <;> simp [h]

theorem align_exact_first_leftmost_witness :
    (Extraction.mk (String.toList "person") (String.toList "John Smith")
        none (some (CharInterval.mk 8 18)) (some AlignmentStatus.MATCH_EXACT)
        0).alignmentStatus ≠ some AlignmentStatus.MATCH_GREATER
      ∧ (Extraction.mk (String.toList "person") (String.toList "John Smith")
        none (some (CharInterval.mk 8 18)) (some AlignmentStatus.MATCH_EXACT)
        0).alignmentStatus ≠ some AlignmentStatus.MATCH_LESSER :=
  align_exact_first_leftmost.2.2.2.2.2
    [Extraction.raw (String.toList "person") (String.toList "John Smith")
      none 0]
    (String.toList "Patient John Smith has diabetes.")
    0 0 true FUZZY_ALIGNMENT_MIN_THRESHOLD
    [Extraction.mk (String.toList "person") (String.toList "John Smith")
      none (some (CharInterval.mk 8 18)) (some AlignmentStatus.MATCH_EXACT) 0]
    rfl _ (List.mem_cons_self ..)

/-- Claim C6 counterexample: both conjuncts of the round-trip fail for
verbatim substrings.  `"bc"` is a verbatim case-sensitive substring of
`"abc"` but aligning it yields no match at all (the substring cuts through a
token); and `"a b"` is a verbatim substring of `"a  b a b"` (at offset 5)
but `align` grounds it at the earlier token run `[0, 4)` covering `"a  b"`,
whose lowercased-and-trimmed form differs from the extraction text's. -/
theorem align_roundtrip_counterexample :
    (slice (String.toList "abc") 1 3 = String.toList "bc"
      ∧ align [Extraction.raw (String.toList "x") (String.toList "bc") none 0]
          (String.toList "abc") 0 0 true FUZZY_ALIGNMENT_MIN_THRESHOLD = Except.ok [])
    ∧ (slice (String.toList "a  b a b") 5 8 = String.toList "a b"
      ∧ align [Extraction.raw (String.toList "x") (String.toList "a b") none 0]
          (String.toList "a  b a b") 0 0 true FUZZY_ALIGNMENT_MIN_THRESHOLD
        = Except.ok [Extraction.mk (String.toList "x") (String.toList "a b")
            none (some (CharInterval.mk 0 4))
            (some AlignmentStatus.MATCH_EXACT) 0]
      ∧ jsTrim (jsToLower (slice (String.toList "a  b a b") 0 4))
          ≠ jsTrim (jsToLower (String.toList "a b"))) :=
  ⟨⟨by decide, by rfl⟩, by decide, by rfl, by decide⟩

/-- Claim C6 (amended): whenever the extraction's normalized token sequence
is non-empty and occurs as a contiguous run of the source's normalized
tokens — in particular whenever the extraction text appears verbatim
aligned on token boundaries — `align` with `tokenOffset = 0` and
`charOffset = 0` returns the extraction with status `match_exact`, grounded
at the leftmost such run; its char interval spans from the start of that
run's first token to the end of its last token, and token by token the
normalized source run equals the normalized extraction tokens.  (The raw
substring at the interval may differ from the extraction text in case and
internal whitespace, which is why the original lowercase-and-trim equality
fails.) -/
theorem align_roundtrip_token_run (src : List Char) (e : Extraction)
    (fz : Bool) (thr : ℚ)
    (hne : (tokenize e.extractionText).tokens ≠ [])
    (i : Nat)
    (hbound : i + (tokenize e.extractionText).tokens.length
      ≤ (tokenize src).tokens.length)
    (hrun : runMatchesAt ((tokenize e.extractionText).tokens.map normalizeToken)
      (tokenize src).tokens i = true) :
    ∃ e' i₀,
      align [e] src 0 0 fz thr = Except.ok [e']
      ∧ e'.alignmentStatus = some AlignmentStatus.MATCH_EXACT
      ∧ e'.extractionClass = e.extractionClass
      ∧ e'.extractionText = e.extractionText
      ∧ i₀ ≤ i
      ∧ runMatchesAt ((tokenize e.extractionText).tokens.map normalizeToken)
          (tokenize src).tokens i₀ = true
      ∧ (∀ j < i₀,
          runMatchesAt ((tokenize e.extractionText).tokens.map normalizeToken)
            (tokenize src).tokens j = false)
      ∧ e'.charInterval = some (CharInterval.mk
          (((tokenize src).charIntervals.getD i₀ (CharInterval.mk 0 0)).startPos)
          (((tokenize src).charIntervals.getD
              (i₀ + (tokenize e.extractionText).tokens.length - 1)
              (CharInterval.mk 0 0)).endPos))
      ∧ ∀ j < (tokenize e.extractionText).tokens.length,
          normalizeToken ((tokenize src).tokens.getD (i₀ + j) [])
            = normalizeToken ((tokenize e.extractionText).tokens.getD j []) := by
  have hE : 1 ≤ (tokenize e.extractionText).tokens.length :=
    Nat.one_le_iff_ne_zero.mpr (fun h0 => hne (List.length_eq_zero.mp h0))
  cases hex : findExactMatch (tokenize e.extractionText).tokens
      (tokenize src).tokens 0 with
  | none =>
    exfalso
    have := (scanExact_spec _ _ _).2 hex i (Nat.zero_le _)
      (by simp only [List.length_map]; omega)
    rw [this] at hrun
    cases hrun
  | some m =>
    obtain ⟨p1, _, p3, p4, p5⟩ := (scanExact_spec _ _ _).1 m hex
    simp only [List.length_map] at p1 p3
    have hi₀ : m.1 ≤ i := by
      by_contra hlt
      push_neg at hlt
      have := p5 i (Nat.zero_le _) hlt
      rw [this] at hrun
      cases hrun
    have hlenci := tokenize_lengths_eq src
    have hs : m.1 < (tokenize src).charIntervals.length := by omega
    have hci : tokenToCharInterval m.1 m.2 src 0
        = Except.ok (CharInterval.mk
            (0 + ((tokenize src).charIntervals.getD m.1
              (CharInterval.mk 0 0)).startPos)
            (0 + ((tokenize src).charIntervals.getD
              (m.1 + (tokenize e.extractionText).tokens.length - 1)
              (CharInterval.mk 0 0)).endPos)) := by
      rw [show m.2 = (m.1 + (tokenize e.extractionText).tokens.length - 1) + 1
        from by omega]
      exact tokenToCharInterval_eval src 0 m.1 _ hs (by omega)
    have hali := alignSingle_exact_eq e (tokenize src).tokens src 0 0 fz thr
      m hex _ hci
    refine ⟨{ e with
        charInterval := some (CharInterval.mk
          (0 + ((tokenize src).charIntervals.getD m.1
            (CharInterval.mk 0 0)).startPos)
          (0 + ((tokenize src).charIntervals.getD
            (m.1 + (tokenize e.extractionText).tokens.length - 1)
            (CharInterval.mk 0 0)).endPos))
        alignmentStatus := some AlignmentStatus.MATCH_EXACT },
      m.1, ?_, rfl, rfl, rfl, hi₀, p4,
      (fun j hj => p5 j (Nat.zero_le _) hj), by simp, ?_⟩
    · show alignLoop (tokenize src).tokens src 0 0 fz thr [e] = _
      rw [alignLoop, hali]
      rfl
    · intro j hj
      have hmem := (runMatchesAt_iff _ _ _).mp p4 j
        (by simpa [List.length_map] using hj)
      rw [getD_map_lt normalizeToken _ j hj [] []] at hmem
      exact hmem

theorem align_roundtrip_token_run_witness :
    ∃ e' i₀,
      align [Extraction.raw (String.toList "person") (String.toList "John Smith")
          none 0]
        (String.toList "Patient John Smith has diabetes.") 0 0 true FUZZY_ALIGNMENT_MIN_THRESHOLD
        = Except.ok [e']
      ∧ e'.alignmentStatus = some AlignmentStatus.MATCH_EXACT
      ∧ e'.extractionClass = String.toList "person"
      ∧ e'.extractionText = String.toList "John Smith"
      ∧ i₀ ≤ 1
      ∧ runMatchesAt
          ((tokenize (String.toList "John Smith")).tokens.map normalizeToken)
          (tokenize (String.toList "Patient John Smith has diabetes.")).tokens
          i₀ = true
      ∧ (∀ j < i₀,
          runMatchesAt
            ((tokenize (String.toList "John Smith")).tokens.map normalizeToken)
            (tokenize (String.toList "Patient John Smith has diabetes.")).tokens
            j = false)
      ∧ e'.charInterval = some (CharInterval.mk
          (((tokenize (String.toList "Patient John Smith has diabetes.")).charIntervals.getD
              i₀ (CharInterval.mk 0 0)).startPos)
          (((tokenize (String.toList "Patient John Smith has diabetes.")).charIntervals.getD
              (i₀ + (tokenize (String.toList "John Smith")).tokens.length - 1)
              (CharInterval.mk 0 0)).endPos))
      ∧ ∀ j < (tokenize (String.toList "John Smith")).tokens.length,
          normalizeToken
            ((tokenize (String.toList "Patient John Smith has diabetes.")).tokens.getD
              (i₀ + j) [])
            = normalizeToken
                ((tokenize (String.toList "John Smith")).tokens.getD j []) :=
  align_roundtrip_token_run
    (String.toList "Patient John Smith has diabetes.")
    (Extraction.raw (String.toList "person") (String.toList "John Smith")
      none 0)
    true FUZZY_ALIGNMENT_MIN_THRESHOLD (by decide) 1 (by decide) (by decide)

/-! ## Output parser (`Resolver.extractAndParseContent` and the record
pipeline)

`extractAndParseContent` trims the input, optionally strips a fenced block
with the regex `/\x60\x60\x60(?:json|yaml|yml)\n?([\s\S]*?)\n?\x60\x60\x60/`
(leftmost match, lazy group, both `\n?` greedy), and deserializes with
`JSON.parse` or `yaml.load` — external libraries, modelled as a
deserializer parameter producing a `JValue`. -/

def fenceTags : List (List Char) := ["json".toList, "yaml".toList, "yml".toList]

/-- Can the closing part `\n?\x60\x60\x60` of the pattern consume a prefix of
`s` (preferring to take the newline)? -/
def startsClose (s : List Char) : Bool :=
  ("\n```".toList).isPrefixOf s || ("```".toList).isPrefixOf s

/-- The lazy group: the shortest prefix of `s` after which the closing part
of the pattern matches. -/
def lazyClose : List Char → Option (List Char)
  | [] => none
  | c :: rest =>
    if startsClose (c :: rest) then some []
    else (lazyClose rest).map (fun g => c :: g)

/-- `\n?([\s\S]*?)\n?\x60\x60\x60` after the tag: the leading greedy `\n?`
prefers to consume a newline, backtracking to the empty match only if no
overall match exists that way. -/
def fenceRest (s : List Char) : Option (List Char) :=
  match s with
  | '\n' :: rest =>
    match lazyClose rest with
    | some g => some g
    | none => lazyClose ('\n' :: rest)
  | _ => lazyClose s

/-- The tag alternation `(?:json|yaml|yml)`, tried in order.  No two tags
can match the same text (none is a prefix of another), so the regex never
backtracks across the alternation. -/
def tagAt (s : List Char) : Option (List Char) :=
  fenceTags.find? (fun t => t.isPrefixOf s)

/-- One match attempt of the fence regex anchored at the head of `s`,
returning the captured group. -/
def matchFenceAt (s : List Char) : Option (List Char) :=
  if ("```".toList).isPrefixOf s then
    match tagAt (s.drop 3) with
    | some tag => fenceRest (s.drop (3 + tag.length))
    | none => none
  else none

/-- `content.match(fenceRegex)`: the leftmost successful match attempt. -/
def findFence : List Char → Option (List Char)
  | [] => none
  | c :: rest =>
    match matchFenceAt (c :: rest) with
    | some g => some g
    | none => findFence rest

/-- A tagged fence opener somewhere in `s`: the necessary condition for
the fence regex to match at all (the tag is part of the literal prefix of
the pattern). -/
def openTagAt (s : List Char) : Bool :=
  ("```json".toList).isPrefixOf s || ("```yaml".toList).isPrefixOf s
    || ("```yml".toList).isPrefixOf s

def hasTaggedOpen : List Char → Bool
  | [] => false
  | c :: rest => openTagAt (c :: rest) || hasTaggedOpen rest

/-- The content `extractAndParseContent` hands to the deserializer:
`inputString.trim()`, then — when `fenceOutput` — `match[1].trim()` of the
first fenced block if the regex matched, the trimmed input otherwise. -/
def resolverContent (fenceOutput : Bool) (inputString : List Char) : List Char :=
  let content := jsTrim inputString
  if fenceOutput then
    match findFence content with
    | some g => jsTrim g
    | none => content
  else content

/-- Property lookup on a parsed object (`"extractions" in parsed`,
`data[attributesKey]`): association-list search; keys of a parsed object
are unique. -/
def objLookup (kvs : List (List Char × JValue)) (k : List Char) :
    Option JValue :=
  (kvs.find? (fun kv => kv.1 == k)).map Prod.snd

/-- `Resolver.stringToExtractionData` after deserialization: an array is the
record list; an object must contain the key `extractions`, whose value —
whatever it is — becomes the record list; anything else (including `null`
and primitives, which fail the `parsed && typeof parsed === "object"`
guard) throws `"Invalid extraction data format"`. -/
def stringToExtractionData (parsed : JValue) : Except String JValue :=
  match parsed with
  | JValue.arr xs => Except.ok (JValue.arr xs)
  | JValue.obj kvs =>
    match objLookup kvs ("extractions".toList) with
    | some v => Except.ok v
    | none => Except.error "Invalid extraction data format"
  | _ => Except.error "Invalid extraction data format"

/-- `Object.entries(data)` on an untyped record: objects give their own
key/value pairs in insertion order; a string gives one single-character
string per index with the index as key; numbers and booleans have no
enumerable properties; `null` throws a `TypeError`; an array indexes its
elements. -/
def jsEntries (v : JValue) : Except String (List (List Char × JValue)) :=
  match v with
  | JValue.obj kvs => Except.ok kvs
  | JValue.arr xs =>
    Except.ok (xs.enum.map (fun p => ((Nat.repr p.1).toList, p.2)))
  | JValue.str s =>
    Except.ok (s.enum.map (fun p => ((Nat.repr p.1).toList, JValue.str [p.2])))
  | JValue.num _ => Except.ok []
  | JValue.bool _ => Except.ok []
  | JValue.null => Except.error "TypeError: Object.entries(null)"

/-- Property access `data[attributesKey]` on an untyped record. -/
def jsGetProp (v : JValue) (k : List Char) : Option JValue :=
  match v with
  | JValue.obj kvs => objLookup kvs k
  | _ => none

def extractionAttributesSuffix : List Char := "_attributes".toList

/-- The inner `for (const [key, value] of Object.entries(data))` loop of
`extractOrderedExtractions`: skip attribute keys; a string value becomes an
extraction of that class, picking up `data[key + "_attributes"]` as
attributes when it is a truthy object (`null` is falsy; arrays have
`typeof "object"`). -/
def recordToExtractions (data : JValue) (i : Nat) :
    Except String (List Extraction) :=
  match jsEntries data with
  | Except.error e => Except.error e
  | Except.ok entries =>
    Except.ok (entries.filterMap (fun kv =>
      if kv.1 == extractionAttributesSuffix
          || extractionAttributesSuffix.isSuffixOf kv.1 then
        none
      else
        match kv.2 with
        | JValue.str s =>
          some (Extraction.raw kv.1 s
            (match jsGetProp data (kv.1 ++ extractionAttributesSuffix) with
              | some (JValue.obj kvs) => some (JValue.obj kvs)
              | some (JValue.arr xs) => some (JValue.arr xs)
              | _ => none)
            i)
        | _ => none))

/-- The outer `for (let i = 0; i < extractionData.length; i++)` loop of
`extractOrderedExtractions` applied to an untyped value: an array iterates
its elements; a string iterates its characters (as one-character strings);
numbers, booleans and objects without a numeric `length` property have
`length` `undefined`, so the loop body never runs; `null` throws reading
`.length`; an object with a numeric `length` iterates `data[0..length)`
(a missing index key gives `undefined`, on which `Object.entries` throws).
A string-valued `length` property (which JavaScript would coerce
numerically) is not modelled; no theorem exercises it. -/
def jsIndexable (v : JValue) : Except String (List JValue) :=
  match v with
  | JValue.arr xs => Except.ok xs
  | JValue.str s => Except.ok (s.map (fun c => JValue.str [c]))
  | JValue.num _ => Except.ok []
  | JValue.bool _ => Except.ok []
  | JValue.null => Except.error "TypeError: cannot read length of null"
  | JValue.obj kvs =>
    match objLookup kvs ("length".toList) with
    | some (JValue.num n) =>
      if n ≤ 0 then Except.ok []
      else (List.range n.toNat).mapM (fun i =>
        match objLookup kvs ((Nat.repr i).toList) with
        | some w => Except.ok w
        | none => Except.error "TypeError: Object.entries(undefined)")
    | _ => Except.ok []

def extractOrderedExtractions (extractionData : JValue) :
    Except String (List Extraction) :=
  match jsIndexable extractionData with
  | Except.error e => Except.error e
  | Except.ok records =>
    match records.enum.mapM (fun p => recordToExtractions p.2 p.1) with
    | Except.error e => Except.error e
    | Except.ok lists => Except.ok lists.flatten

/-- `Resolver.resolve` on an already-deserialized value: the try/catch
around the pipeline either suppresses the error into an empty list
(`suppressParseErrors`) or wraps it in a `ResolverParsingError`. -/
def resolveParsed (parsed : JValue) (suppressParseErrors : Bool) :
    Except String (List Extraction) :=
  match (match stringToExtractionData parsed with
    | Except.error e => Except.error e
    | Except.ok d => extractOrderedExtractions d) with
  | Except.ok exts => Except.ok exts
  | Except.error e =>
    if suppressParseErrors then Except.ok []
    else Except.error ("Failed to resolve input text: " ++ e)

/-- `Resolver.extractAndParseContent` on raw model output, with the
format-specific deserializer (`JSON.parse` / `yaml.load`, external) passed
explicitly: trim/fence-strip, then deserialize, wrapping a deserializer
failure in the catch message of the method. -/
def extractAndParseContent (deser : List Char → Except String JValue)
    (fenceOutput : Bool) (inputString : List Char) : Except String JValue :=
  match deser (resolverContent fenceOutput inputString) with
  | Except.error e => Except.error ("Failed to parse content: " ++ e)
  | Except.ok v => Except.ok v

/-- The body of the try block of `Resolver.resolve`:
`extractOrderedExtractions(stringToExtractionData(inputText))`. -/
def resolvePipeline (deser : List Char → Except String JValue)
    (fenceOutput : Bool) (inputText : List Char) :
    Except String (List Extraction) :=
  match extractAndParseContent deser fenceOutput inputText with
  | Except.error e => Except.error e
  | Except.ok parsed =>
    match stringToExtractionData parsed with
    | Except.error e => Except.error e
    | Except.ok d => extractOrderedExtractions d

/-- `Resolver.resolve` on raw model output: the try/catch either
suppresses a pipeline error into an empty list (`suppressParseErrors`) or
wraps it in a `ResolverParsingError`. -/
def resolveWith (deser : List Char → Except String JValue)
    (fenceOutput : Bool) (inputText : List Char)
    (suppressParseErrors : Bool) : Except String (List Extraction) :=
  match resolvePipeline deser fenceOutput inputText with
  | Except.ok exts => Except.ok exts
  | Except.error e =>
    if suppressParseErrors then Except.ok []
    else Except.error ("Failed to resolve input text: " ++ e)

/-! ## Orchestrator per-chunk loop (`Annotator.annotateDocumentsSinglePass`)

For one document, the loop over its chunks: a chunk with a model output
resolves (NO `suppressParseErrors` option is passed — the `options`
argument is omitted) and aligns with the chunk's offsets; a chunk whose
model call produced no output contributes nothing.  Errors propagate and
abort the run.  Call-site defaults: `enableFuzzyAlignment = true`,
`fuzzyAlignmentThreshold = 0.75`. -/
def processChunk (deser : List Char → Except String JValue)
    (fenceOutput : Bool) (chunk : Chunk) (out : Option (List Char)) :
    Except String (List Extraction) :=
  match out with
  | some output =>
    match resolveWith deser fenceOutput output false with
    | Except.error e => Except.error e
    | Except.ok extractions =>
      align extractions chunk.text chunk.tokenOffset chunk.charOffset
        true FUZZY_ALIGNMENT_MIN_THRESHOLD
  | none => Except.ok []

def annotateChunkLoop (deser : List Char → Except String JValue)
    (fenceOutput : Bool) :
    List (Chunk × Option (List Char)) → Except String (List Extraction)
  | [] => Except.ok []
  | (chunk, out) :: rest =>
    match processChunk deser fenceOutput chunk out with
    | Except.error e => Except.error e
    | Except.ok aligned =>
      match annotateChunkLoop deser fenceOutput rest with
      | Except.error e => Except.error e
      | Except.ok others => Except.ok (aligned ++ others)

/-! ## Multi-pass merge (`mergeNonOverlappingExtractions`) -/

/-- `extractionsOverlap`: character-interval overlap; an extraction lacking
a resolved interval never overlaps anything.  (The `?? 0` defaults on the
interval fields are unreachable: every interval this core produces has both
bounds.) -/
def extractionsOverlap (extraction1 extraction2 : Extraction) : Bool :=
  match extraction1.charInterval, extraction2.charInterval with
  | some c1, some c2 =>
    decide (c1.startPos < c2.endPos) && decide (c2.startPos < c1.endPos)
  | _, _ => false

/-- The body of the inner loop of `mergeNonOverlappingExtractions`: append
`extraction` unless it has an interval and overlaps an existing
interval-carrying extraction. -/
def mergeStep (merged : List Extraction) (extraction : Extraction) :
    List Extraction :=
  if extraction.charInterval.isSome
      && merged.any (fun ex =>
        ex.charInterval.isSome && extractionsOverlap extraction ex) then
    merged
  else merged ++ [extraction]

def mergeNonOverlappingExtractions (allExtractions : List (List Extraction)) :
    List Extraction :=
  match allExtractions with
  | [] => []
  | [single] => single
  | first :: rest => rest.foldl (fun merged pass => pass.foldl mergeStep merged) first

/-! ### Claims about the record pipeline and the merge -/

/-- Claim C7 counterexample: an object whose `extractions` key holds a
non-array (here the number 42) is accepted — the value is passed through
unchecked and the resolver returns an empty list with no parsing error
raised (`(42).length` is `undefined`, so the record loop never runs). -/
theorem extractions_key_nonarray_counterexample :
    stringToExtractionData (JValue.obj [("extractions".toList, JValue.num 42)])
      = Except.ok (JValue.num 42)
    ∧ resolveParsed (JValue.obj [("extractions".toList, JValue.num 42)]) false
      = Except.ok [] :=
  ⟨rfl, rfl⟩

/-- Claim C7 (amended): a deserialized top-level array is the record list;
an object is accepted whenever it contains a key literally named
`extractions`, whose value — array or not — is then used as the record
list; every deserialized shape that is neither an array nor an object with
an `extractions` key raises the error `"Invalid extraction data format"`,
which `resolve` wraps into its `ResolverParsingError` (or converts to an
empty list under `suppressParseErrors`). -/
theorem stringToExtractionData_shapes :
    (∀ xs, stringToExtractionData (JValue.arr xs) = Except.ok (JValue.arr xs))
    ∧ (∀ kvs v, objLookup kvs ("extractions".toList) = some v →
        stringToExtractionData (JValue.obj kvs) = Except.ok v)
    ∧ (∀ kvs, objLookup kvs ("extractions".toList) = none →
        stringToExtractionData (JValue.obj kvs)
          = Except.error "Invalid extraction data format")
    ∧ (stringToExtractionData JValue.null
        = Except.error "Invalid extraction data format")
    ∧ (∀ b, stringToExtractionData (JValue.bool b)
        = Except.error "Invalid extraction data format")
    ∧ (∀ n, stringToExtractionData (JValue.num n)
        = Except.error "Invalid extraction data format")
    ∧ (∀ s, stringToExtractionData (JValue.str s)
        = Except.error "Invalid extraction data format")
    ∧ (∀ parsed,
        stringToExtractionData parsed
          = Except.error "Invalid extraction data format" →
        resolveParsed parsed false
          = Except.error
              "Failed to resolve input text: Invalid extraction data format"
        ∧ resolveParsed parsed true = Except.ok []) := by
  refine ⟨fun xs => rfl, ?_, ?_, rfl, fun b => rfl, fun n => rfl, fun s => rfl,
    ?_⟩
  · intro kvs v h
    simp only [stringToExtractionData, h]
  · intro kvs h
    simp only [stringToExtractionData, h]
  · intro parsed h
    constructor <;> simp only [resolveParsed, h] <;> rfl

theorem stringToExtractionData_shapes_witness :
    stringToExtractionData
        (JValue.obj [("extractions".toList, JValue.arr [])])
      = Except.ok (JValue.arr []) :=
  stringToExtractionData_shapes.2.1 _ _ rfl

/-- Claim C4 counterexample: in the orchestrator's per-chunk loop a parse
failure on the first chunk's output propagates (wrapped as a
`ResolverParsingError`) and aborts the run — the second chunk is never
reached and no empty-list recovery happens. -/
theorem orchestrator_no_suppression_counterexample :
    annotateChunkLoop (fun _ => Except.error "SyntaxError: Unexpected token")
      false
      [(Chunk.mk (String.toList "chunk one") 0 0,
          some (String.toList "not json")),
        (Chunk.mk (String.toList "chunk two") 2 9,
          some (String.toList "not json"))]
      = Except.error
          "Failed to resolve input text: Failed to parse content: SyntaxError: Unexpected token" :=
  rfl

/-- Claim C4 (amended): the resolver supports the `suppressParseErrors`
opt-in, converting any parse failure into an empty extraction list — but
the orchestrator does not opt in: `annotateDocuments` calls `resolve` with
no options, so a run can only complete when every chunk's model output
resolves successfully; a single malformed chunk output aborts the whole
run instead of being skipped. -/
theorem orchestrator_parse_error_propagates :
    (∀ (deser : List Char → Except String JValue) (fenced : Bool)
        (input : List Char) (e : String),
      resolveWith deser fenced input false = Except.error e →
      resolveWith deser fenced input true = Except.ok [])
    ∧ (∀ (deser : List Char → Except String JValue) (fenced : Bool)
        (chunks : List (Chunk × Option (List Char)))
        (res : List Extraction),
      annotateChunkLoop deser fenced chunks = Except.ok res →
      ∀ c out, (c, some out) ∈ chunks →
        ∃ exts, resolveWith deser fenced out false = Except.ok exts) := by
  constructor
  · intro deser fenced input e h
    simp only [resolveWith] at h ⊢
    cases hx : resolvePipeline deser fenced input with
    | ok exts =>
      rw [hx] at h
      cases h
    | error msg => rfl
  · intro deser fenced chunks
    induction chunks with
    | nil =>
      intro res h c out hmem
      simp at hmem
    | cons p rest ih =>
      intro res h c out hmem
      obtain ⟨chunk, o⟩ := p
      rw [annotateChunkLoop] at h
      cases hc : processChunk deser fenced chunk o with
      | error msg =>
        rw [hc] at h
        cases h
      | ok aligned =>
        rw [hc] at h
        cases hrest : annotateChunkLoop deser fenced rest with
        | error msg =>
          rw [hrest] at h
          cases h
        | ok others =>
          rcases List.mem_cons.mp hmem with heq | hmem'
          · cases heq
            cases hr : resolveWith deser fenced out false with
            | error msg => simp [processChunk, hr] at hc
            | ok exts => exact ⟨exts, rfl⟩
          · exact ih others hrest c out hmem'

theorem orchestrator_parse_error_propagates_witness :
    resolveWith (fun _ => Except.error "SyntaxError: Unexpected token") false
      (String.toList "not json") true = Except.ok [] :=
  orchestrator_parse_error_propagates.1 _ false _
    "Failed to resolve input text: Failed to parse content: SyntaxError: Unexpected token"
    rfl

/-- Claim C3 counterexample: with `A = [a]` and `B = [b1, b2]` where `b1`
and `b2` overlap each other but neither overlaps `a` (so the claim's
premise "no extraction of A overlaps any extraction of B" holds), the merge
drops `b2` — it is checked against the already-appended `b1` — so the
result is not `A ++ B`. -/
theorem merge_nonoverlap_counterexample :
    (extractionsOverlap
        (Extraction.mk [] [] none (some (CharInterval.mk 10 12)) none 0)
        (Extraction.mk [] [] none (some (CharInterval.mk 0 1)) none 0)
      = false)
    ∧ (extractionsOverlap
        (Extraction.mk [] [] none (some (CharInterval.mk 11 13)) none 0)
        (Extraction.mk [] [] none (some (CharInterval.mk 0 1)) none 0)
      = false)
    ∧ mergeNonOverlappingExtractions
        [[Extraction.mk [] [] none (some (CharInterval.mk 0 1)) none 0],
          [Extraction.mk [] [] none (some (CharInterval.mk 10 12)) none 0,
            Extraction.mk [] [] none (some (CharInterval.mk 11 13)) none 0]]
      ≠ [Extraction.mk [] [] none (some (CharInterval.mk 0 1)) none 0]
        ++ [Extraction.mk [] [] none (some (CharInterval.mk 10 12)) none 0,
            Extraction.mk [] [] none (some (CharInterval.mk 11 13)) none 0] := by
  refine ⟨rfl, rfl, ?_⟩
  intro h
  have h2 : (mergeNonOverlappingExtractions
      [[Extraction.mk [] [] none (some (CharInterval.mk 0 1)) none 0],
        [Extraction.mk [] [] none (some (CharInterval.mk 10 12)) none 0,
          Extraction.mk [] [] none (some (CharInterval.mk 11 13)) none 0]]).length
      = 2 := rfl
  rw [h] at h2
  simp at h2

theorem foldl_mergeStep_subset :
    ∀ (B A : List Extraction), ∀ e ∈ B.foldl mergeStep A, e ∈ A ∨ e ∈ B := by
  intro B
  induction B with
  | nil =>
    intro A e he
    exact Or.inl he
  | cons b B' ih =>
    intro A e he
    rw [List.foldl_cons] at he
    rcases ih (mergeStep A b) e he with hA | hB
    · rw [mergeStep] at hA
      split at hA
      · exact Or.inl hA
      · rcases List.mem_append.mp hA with h | h
        · exact Or.inl h
        · exact Or.inr (List.mem_cons.mpr (Or.inl (List.mem_singleton.mp h)))
    · exact Or.inr (List.mem_cons_of_mem _ hB)

theorem foldl_mergeStep_append :
    ∀ (B A : List Extraction),
      (∀ b ∈ B, ∀ a ∈ A, extractionsOverlap b a = false) →
      List.Pairwise (fun x y => extractionsOverlap y x = false) B →
      B.foldl mergeStep A = A ++ B := by
  intro B
  induction B with
  | nil =>
    intro A _ _
    simp
  | cons b B' ih =>
    intro A hcross hpair
    have hstep : mergeStep A b = A ++ [b] := by
      rw [mergeStep]
      have hany : A.any (fun ex =>
          ex.charInterval.isSome && extractionsOverlap b ex) = false := by
        rw [List.any_eq_false]
        intro a ha
        rw [hcross b (List.mem_cons_self ..) a ha]
        simp
      rw [hany]
      simp
    rw [List.foldl_cons, hstep,
      ih (A ++ [b]) ?_ (List.Pairwise.of_cons hpair)]
    · simp
    · intro b' hb' a ha
      rcases List.mem_append.mp ha with h | h
      · exact hcross b' (List.mem_cons_of_mem _ hb') a h
      · rw [List.mem_singleton.mp h]
        exact (List.pairwise_cons.mp hpair).1 b' hb'

/-- Claim C3 (amended): when no extraction of A overlaps any extraction of
B AND no two extractions of B overlap each other, `merge([A, B])` is
exactly `A ++ B` in order (later-pass extractions are checked against the
already-appended extractions of their own pass too, which is what the
extra condition accounts for); and every element of the merged result is an
element of one of the input lists.  Mutually overlapping extractions inside
A are preserved verbatim, so "no two elements of the result overlap" holds
only across the appended elements, not within pass 1. -/
theorem merge_append_and_membership :
    (∀ A B : List Extraction,
      (∀ b ∈ B, ∀ a ∈ A, extractionsOverlap b a = false) →
      List.Pairwise (fun x y => extractionsOverlap y x = false) B →
      mergeNonOverlappingExtractions [A, B] = A ++ B)
    ∧ (∀ A B : List Extraction, ∀ e ∈ mergeNonOverlappingExtractions [A, B],
        e ∈ A ∨ e ∈ B) := by
  constructor
  · intro A B hcross hpair
    show B.foldl mergeStep A = A ++ B
    exact foldl_mergeStep_append B A hcross hpair
  · intro A B e he
    exact foldl_mergeStep_subset B A e he

theorem merge_append_and_membership_witness :
    mergeNonOverlappingExtractions
      [[Extraction.mk [] [] none (some (CharInterval.mk 22 33)) none 0],
        [Extraction.mk [] [] none (some (CharInterval.mk 57 66)) none 0]]
      = [Extraction.mk [] [] none (some (CharInterval.mk 22 33)) none 0]
        ++ [Extraction.mk [] [] none (some (CharInterval.mk 57 66)) none 0] :=
  merge_append_and_membership.1 _ _
    (by intro b hb a ha
        simp only [List.mem_singleton] at hb ha
        rw [hb, ha]
        rfl)
    (List.pairwise_singleton ..)

/-! ### Behaviour of the fence regex -/

theorem isPrefixOf_append_mono : ∀ (p u v : List Char),
    p.isPrefixOf u = true → p.isPrefixOf (u ++ v) = true
  | [], _, _, _ => by simp [List.isPrefixOf]
  | a :: p', u, v, h => by
    cases u with
    | nil => simp [List.isPrefixOf] at h
    | cons b u' =>
      simp only [List.isPrefixOf, Bool.and_eq_true, beq_iff_eq] at h ⊢
      exact ⟨h.1, isPrefixOf_append_mono p' u' v h.2⟩

theorem isPrefixOf_parts : ∀ (p1 p2 s : List Char), p1.isPrefixOf s = true →
    p2.isPrefixOf (s.drop p1.length) = true → (p1 ++ p2).isPrefixOf s = true
  | [], p2, s, _, h2 => by simpa using h2
  | a :: p', p2, s, h1, h2 => by
    cases s with
    | nil => simp [List.isPrefixOf] at h1
    | cons b s' =>
      simp only [List.isPrefixOf, Bool.and_eq_true, beq_iff_eq] at h1 ⊢
      exact ⟨h1.1, isPrefixOf_parts p' p2 s' h1.2 (by simpa using h2)⟩

theorem lazyClose_close : ∀ (body post : List Char), ('\x60') ∉ body →
    lazyClose (body ++ '\n' :: '\x60' :: '\x60' :: '\x60' :: post) = some body
  | [], post, _ => by
    simp [lazyClose, startsClose, List.isPrefixOf]
  | c :: bs, post, h => by
    have hc : c ≠ '\x60' := fun hcc => h (by rw [hcc] at *; exact List.mem_cons_self ..)
    have hbs : ('\x60') ∉ bs := fun hm => h (List.mem_cons_of_mem _ hm)
    have hsc : startsClose
        (c :: (bs ++ '\n' :: '\x60' :: '\x60' :: '\x60' :: post)) = false := by
      simp only [startsClose, Bool.or_eq_false_iff]
      constructor
      · cases bs with
        | nil => simp [List.isPrefixOf]
        | cons b bs' =>
          have hb : b ≠ '\x60' :=
            fun hbb => hbs (by rw [hbb] at *; exact List.mem_cons_self ..)
          simp [List.isPrefixOf, beq_iff_eq, Ne.symm hb]
      · simp [List.isPrefixOf, beq_iff_eq, Ne.symm hc]
    simp only [List.cons_append, lazyClose, List.append_eq, hsc, Bool.false_eq_true,
      if_false, lazyClose_close bs post hbs]
    rfl

theorem lazyClose_none_no_tick : ∀ s : List Char, ('\x60') ∉ s →
    lazyClose s = none
  | [], _ => rfl
  | c :: rest, h => by
    have hc : c ≠ '\x60' := fun hcc => h (by rw [hcc] at *; exact List.mem_cons_self ..)
    have hrest : ('\x60') ∉ rest := fun hm => h (List.mem_cons_of_mem _ hm)
    have hsc : startsClose (c :: rest) = false := by
      simp only [startsClose, Bool.or_eq_false_iff]
      constructor
      · cases rest with
        | nil => simp [List.isPrefixOf]
        | cons r rest' =>
          have hr : r ≠ '\x60' :=
            fun hrr => hrest (by rw [hrr] at *; exact List.mem_cons_self ..)
          simp [List.isPrefixOf, beq_iff_eq, Ne.symm hr]
      · simp [List.isPrefixOf, beq_iff_eq, Ne.symm hc]
    simp only [lazyClose, hsc, Bool.false_eq_true, if_false,
      lazyClose_none_no_tick rest hrest]
    rfl

theorem openTagAt_append_mono (u v : List Char) (h : openTagAt u = true) :
    openTagAt (u ++ v) = true := by
  simp only [openTagAt, Bool.or_eq_true] at h ⊢
  rcases h with (h | h) | h
  · exact Or.inl (Or.inl (isPrefixOf_append_mono _ u v h))
  · exact Or.inl (Or.inr (isPrefixOf_append_mono _ u v h))
  · exact Or.inr (isPrefixOf_append_mono _ u v h)

theorem hasTaggedOpen_append : ∀ (u v : List Char),
    hasTaggedOpen (u ++ v) = false → hasTaggedOpen u = false
  | [], _, _ => rfl
  | c :: u', v, h => by
    simp only [List.cons_append, hasTaggedOpen, List.append_eq,
      Bool.or_eq_false_iff] at h ⊢
    refine ⟨?_, hasTaggedOpen_append u' v h.2⟩
    by_contra hop
    have hop' : openTagAt (c :: u') = true := by
      cases hx : openTagAt (c :: u')
      · exact absurd hx hop
      · rfl
    have := openTagAt_append_mono (c :: u') v hop'
    rw [List.cons_append] at this
    rw [this] at h
    exact absurd h.1 (by simp)

theorem hasTaggedOpen_dropWhile (p : Char → Bool) : ∀ s : List Char,
    hasTaggedOpen s = false → hasTaggedOpen (s.dropWhile p) = false
  | [], _ => rfl
  | c :: rest, h => by
    simp only [hasTaggedOpen, Bool.or_eq_false_iff] at h
    rw [List.dropWhile_cons]
    by_cases hp : p c = true
    · rw [if_pos hp]
      exact hasTaggedOpen_dropWhile p rest h.2
    · rw [if_neg hp]
      simp only [hasTaggedOpen, Bool.or_eq_false_iff]
      exact h

theorem jsTrim_append_eq (s : List Char) :
    jsTrim s ++ ((s.dropWhile isJsSpace).reverse.takeWhile isJsSpace).reverse
      = s.dropWhile isJsSpace := by
  rw [jsTrim, ← List.reverse_append, List.takeWhile_append_dropWhile,
    List.reverse_reverse]

theorem hasTaggedOpen_trim (s : List Char) (h : hasTaggedOpen s = false) :
    hasTaggedOpen (jsTrim s) = false := by
  have h2 := hasTaggedOpen_dropWhile isJsSpace s h
  rw [← jsTrim_append_eq s] at h2
  exact hasTaggedOpen_append _ _ h2

theorem matchFenceAt_none_of_not_open (s : List Char)
    (h : openTagAt s = false) : matchFenceAt s = none := by
  by_cases h3 : ("```".toList).isPrefixOf s = true
  · rw [matchFenceAt, if_pos h3]
    cases ht : tagAt (s.drop 3) with
    | none => rfl
    | some tag =>
      exfalso
      have hmem : tag ∈ fenceTags := List.mem_of_find?_eq_some ht
      have hpre : tag.isPrefixOf (s.drop 3) = true := by
        have := List.find?_some ht
        simpa using this
      have hpre' : tag.isPrefixOf (s.drop ("```".toList.length)) = true := hpre
      simp only [fenceTags, List.mem_cons, List.not_mem_nil, or_false] at hmem
      simp only [openTagAt, Bool.or_eq_false_iff] at h
      rcases hmem with rfl | rfl | rfl
      · have := isPrefixOf_parts ("```".toList) ("json".toList) s h3 hpre'
        rw [show ("```".toList ++ "json".toList) = "```json".toList from rfl]
          at this
        rw [this] at h
        exact absurd h.1.1 (by simp)
      · have := isPrefixOf_parts ("```".toList) ("yaml".toList) s h3 hpre'
        rw [show ("```".toList ++ "yaml".toList) = "```yaml".toList from rfl]
          at this
        rw [this] at h
        exact absurd h.1.2 (by simp)
      · have := isPrefixOf_parts ("```".toList) ("yml".toList) s h3 hpre'
        rw [show ("```".toList ++ "yml".toList) = "```yml".toList from rfl]
          at this
        rw [this] at h
        exact absurd h.2 (by simp)
  · rw [matchFenceAt, if_neg h3]

theorem findFence_none_of_no_open : ∀ s : List Char,
    hasTaggedOpen s = false → findFence s = none
  | [], _ => rfl
  | c :: rest, h => by
    simp only [hasTaggedOpen, Bool.or_eq_false_iff] at h
    rw [findFence, matchFenceAt_none_of_not_open _ h.1]
    exact findFence_none_of_no_open rest h.2

theorem resolverContent_no_open (s : List Char)
    (h : hasTaggedOpen s = false) : resolverContent true s = jsTrim s := by
  rw [resolverContent]
  simp only [if_true]
  rw [findFence_none_of_no_open _ (hasTaggedOpen_trim s h)]

theorem hasTaggedOpen_no_tick : ∀ s : List Char, ('\x60') ∉ s →
    hasTaggedOpen s = false
  | [], _ => rfl
  | c :: rest, h => by
    have hc : c ≠ '\x60' := fun hcc => h (by rw [hcc] at *; exact List.mem_cons_self ..)
    have hrest := hasTaggedOpen_no_tick rest (fun hm => h (List.mem_cons_of_mem _ hm))
    simp only [hasTaggedOpen, Bool.or_eq_false_iff]
    refine ⟨?_, hrest⟩
    simp [openTagAt, List.isPrefixOf, beq_iff_eq, Ne.symm hc]

theorem findFence_tagged : ∀ tag ∈ fenceTags, ∀ (body post : List Char),
    ('\x60') ∉ body →
    findFence ("```".toList ++ tag ++ '\n' :: body ++ '\n' :: "```".toList ++ post)
      = some body := by
  intro tag htag body post h
  simp only [fenceTags, List.mem_cons, List.not_mem_nil, or_false] at htag
  rcases htag with rfl | rfl | rfl
  · have hrw : ("```".toList ++ "json".toList ++ '\n' :: body
        ++ '\n' :: "```".toList ++ post)
        = '\x60' :: '\x60' :: '\x60' :: 'j' :: 's' :: 'o' :: 'n' ::
          '\n' :: (body ++ '\n' :: '\x60' :: '\x60' :: '\x60' :: post) := by
      simp
    rw [hrw, findFence]
    have hm : matchFenceAt ('\x60' :: '\x60' :: '\x60' :: 'j' :: 's' :: 'o' ::
        'n' :: '\n' :: (body ++ '\n' :: '\x60' :: '\x60' :: '\x60' :: post))
        = some body := by
      rw [matchFenceAt, if_pos (by simp [List.isPrefixOf])]
      have ht : tagAt (('\x60' :: '\x60' :: '\x60' :: 'j' :: 's' :: 'o' :: 'n' ::
          '\n' :: (body ++ '\n' :: '\x60' :: '\x60' :: '\x60' :: post)).drop 3)
          = some ("json".toList) := by
        simp [tagAt, fenceTags, List.find?, List.isPrefixOf]
      simp only [ht]
      rw [show (('\x60' :: '\x60' :: '\x60' :: 'j' :: 's' :: 'o' :: 'n' ::
          '\n' :: (body ++ '\n' :: '\x60' :: '\x60' :: '\x60' :: post)).drop
          (3 + ("json".toList).length))
        = '\n' :: (body ++ '\n' :: '\x60' :: '\x60' :: '\x60' :: post) from rfl]
      show (match lazyClose (body ++ '\n' :: '\x60' :: '\x60' :: '\x60' :: post)
          with
        | some g => some g
        | none => lazyClose ('\n' :: (body ++ '\n' :: '\x60' :: '\x60' ::
            '\x60' :: post))) = some body
      rw [lazyClose_close body post h]
    rw [hm]
  · have hrw : ("```".toList ++ "yaml".toList ++ '\n' :: body
        ++ '\n' :: "```".toList ++ post)
        = '\x60' :: '\x60' :: '\x60' :: 'y' :: 'a' :: 'm' :: 'l' ::
          '\n' :: (body ++ '\n' :: '\x60' :: '\x60' :: '\x60' :: post) := by
      simp
    rw [hrw, findFence]
    have hm : matchFenceAt ('\x60' :: '\x60' :: '\x60' :: 'y' :: 'a' :: 'm' ::
        'l' :: '\n' :: (body ++ '\n' :: '\x60' :: '\x60' :: '\x60' :: post))
        = some body := by
      rw [matchFenceAt, if_pos (by simp [List.isPrefixOf])]
      have ht : tagAt (('\x60' :: '\x60' :: '\x60' :: 'y' :: 'a' :: 'm' :: 'l' ::
          '\n' :: (body ++ '\n' :: '\x60' :: '\x60' :: '\x60' :: post)).drop 3)
          = some ("yaml".toList) := by
        simp [tagAt, fenceTags, List.find?, List.isPrefixOf]
      simp only [ht]
      rw [show (('\x60' :: '\x60' :: '\x60' :: 'y' :: 'a' :: 'm' :: 'l' ::
          '\n' :: (body ++ '\n' :: '\x60' :: '\x60' :: '\x60' :: post)).drop
          (3 + ("yaml".toList).length))
        = '\n' :: (body ++ '\n' :: '\x60' :: '\x60' :: '\x60' :: post) from rfl]
      show (match lazyClose (body ++ '\n' :: '\x60' :: '\x60' :: '\x60' :: post)
          with
        | some g => some g
        | none => lazyClose ('\n' :: (body ++ '\n' :: '\x60' :: '\x60' ::
            '\x60' :: post))) = some body
      rw [lazyClose_close body post h]
    rw [hm]
  · have hrw : ("```".toList ++ "yml".toList ++ '\n' :: body
        ++ '\n' :: "```".toList ++ post)
        = '\x60' :: '\x60' :: '\x60' :: 'y' :: 'm' :: 'l' ::
          '\n' :: (body ++ '\n' :: '\x60' :: '\x60' :: '\x60' :: post) := by
      simp
    rw [hrw, findFence]
    have hm : matchFenceAt ('\x60' :: '\x60' :: '\x60' :: 'y' :: 'm' :: 'l' ::
        '\n' :: (body ++ '\n' :: '\x60' :: '\x60' :: '\x60' :: post))
        = some body := by
      rw [matchFenceAt, if_pos (by simp [List.isPrefixOf])]
      have ht : tagAt (('\x60' :: '\x60' :: '\x60' :: 'y' :: 'm' :: 'l' ::
          '\n' :: (body ++ '\n' :: '\x60' :: '\x60' :: '\x60' :: post)).drop 3)
          = some ("yml".toList) := by
        simp [tagAt, fenceTags, List.find?, List.isPrefixOf]
      simp only [ht]
      rw [show (('\x60' :: '\x60' :: '\x60' :: 'y' :: 'm' :: 'l' ::
          '\n' :: (body ++ '\n' :: '\x60' :: '\x60' :: '\x60' :: post)).drop
          (3 + ("yml".toList).length))
        = '\n' :: (body ++ '\n' :: '\x60' :: '\x60' :: '\x60' :: post) from rfl]
      show (match lazyClose (body ++ '\n' :: '\x60' :: '\x60' :: '\x60' :: post)
          with
        | some g => some g
        | none => lazyClose ('\n' :: (body ++ '\n' :: '\x60' :: '\x60' ::
            '\x60' :: post))) = some body
      rw [lazyClose_close body post h]
    rw [hm]

theorem ticks_not_prefix_no_tick (body : List Char) (h : ('\x60') ∉ body) :
    (['\x60', '\x60', '\x60']).isPrefixOf body = false := by
  cases body with
  | nil => rfl
  | cons b bs =>
    have hb : b ≠ '\x60' := fun hbb => h (by rw [hbb] at *; exact List.mem_cons_self ..)
    simp [List.isPrefixOf, beq_iff_eq, Ne.symm hb]

theorem lazyClose_newline_no_tick (body : List Char) (h : ('\x60') ∉ body) :
    lazyClose ('\n' :: body) = none := by
  have hsc : startsClose ('\n' :: body) = false := by
    simp only [startsClose, Bool.or_eq_false_iff]
    refine ⟨?_, by simp [List.isPrefixOf]⟩
    simp [List.isPrefixOf, ticks_not_prefix_no_tick body h]
  rw [lazyClose]
  simp only [hsc, Bool.false_eq_true, if_false, lazyClose_none_no_tick body h]
  rfl

theorem fenceRest_newline_no_tick (body : List Char) (h : ('\x60') ∉ body) :
    fenceRest ('\n' :: body) = none := by
  have h1 := lazyClose_none_no_tick body h
  have h2 := lazyClose_newline_no_tick body h
  show (match lazyClose body with
    | some g => some g
    | none => lazyClose ('\n' :: body)) = none
  rw [h1, h2]

theorem findFence_missing_close : ∀ tag ∈ fenceTags, ∀ body : List Char,
    ('\x60') ∉ body →
    findFence ("```".toList ++ tag ++ '\n' :: body) = none := by
  intro tag htag body h
  simp only [fenceTags, List.mem_cons, List.not_mem_nil, or_false] at htag
  rcases htag with rfl | rfl | rfl
  · have hrw : ("```".toList ++ "json".toList ++ '\n' :: body)
        = '\x60' :: '\x60' :: '\x60' :: 'j' :: 's' :: 'o' :: 'n' ::
          '\n' :: body := by simp
    rw [hrw, findFence]
    have hm : matchFenceAt ('\x60' :: '\x60' :: '\x60' :: 'j' :: 's' :: 'o' ::
        'n' :: '\n' :: body) = none := by
      rw [matchFenceAt, if_pos (by simp [List.isPrefixOf])]
      have ht : tagAt (('\x60' :: '\x60' :: '\x60' :: 'j' :: 's' :: 'o' :: 'n' ::
          '\n' :: body).drop 3) = some ("json".toList) := by
        simp [tagAt, fenceTags, List.find?, List.isPrefixOf]
      simp only [ht]
      rw [show (('\x60' :: '\x60' :: '\x60' :: 'j' :: 's' :: 'o' :: 'n' ::
          '\n' :: body).drop (3 + ("json".toList).length)) = '\n' :: body
        from rfl]
      exact fenceRest_newline_no_tick body h
    rw [hm]
    apply findFence_none_of_no_open
    simp [hasTaggedOpen, openTagAt, List.isPrefixOf, hasTaggedOpen_no_tick body h]
  · have hrw : ("```".toList ++ "yaml".toList ++ '\n' :: body)
        = '\x60' :: '\x60' :: '\x60' :: 'y' :: 'a' :: 'm' :: 'l' ::
          '\n' :: body := by simp
    rw [hrw, findFence]
    have hm : matchFenceAt ('\x60' :: '\x60' :: '\x60' :: 'y' :: 'a' :: 'm' ::
        'l' :: '\n' :: body) = none := by
      rw [matchFenceAt, if_pos (by simp [List.isPrefixOf])]
      have ht : tagAt (('\x60' :: '\x60' :: '\x60' :: 'y' :: 'a' :: 'm' :: 'l' ::
          '\n' :: body).drop 3) = some ("yaml".toList) := by
        simp [tagAt, fenceTags, List.find?, List.isPrefixOf]
      simp only [ht]
      rw [show (('\x60' :: '\x60' :: '\x60' :: 'y' :: 'a' :: 'm' :: 'l' ::
          '\n' :: body).drop (3 + ("yaml".toList).length)) = '\n' :: body
        from rfl]
      exact fenceRest_newline_no_tick body h
    rw [hm]
    apply findFence_none_of_no_open
    simp [hasTaggedOpen, openTagAt, List.isPrefixOf, hasTaggedOpen_no_tick body h]
  · have hrw : ("```".toList ++ "yml".toList ++ '\n' :: body)
        = '\x60' :: '\x60' :: '\x60' :: 'y' :: 'm' :: 'l' ::
          '\n' :: body := by simp
    rw [hrw, findFence]
    have hm : matchFenceAt ('\x60' :: '\x60' :: '\x60' :: 'y' :: 'm' ::
        'l' :: '\n' :: body) = none := by
      rw [matchFenceAt, if_pos (by simp [List.isPrefixOf])]
      have ht : tagAt (('\x60' :: '\x60' :: '\x60' :: 'y' :: 'm' :: 'l' ::
          '\n' :: body).drop 3) = some ("yml".toList) := by
        simp [tagAt, fenceTags, List.find?, List.isPrefixOf]
      simp only [ht]
      rw [show (('\x60' :: '\x60' :: '\x60' :: 'y' :: 'm' :: 'l' ::
          '\n' :: body).drop (3 + ("yml".toList).length)) = '\n' :: body
        from rfl]
      exact fenceRest_newline_no_tick body h
    rw [hm]
    apply findFence_none_of_no_open
    simp [hasTaggedOpen, openTagAt, List.isPrefixOf, hasTaggedOpen_no_tick body h]

/-- Claim C1 (amended: the format tag is required, not optional, and a fence
with a missing closing delimiter is not stripped at all): with fence output
enabled, the content handed to the deserializer is the trimmed capture of the
first (leftmost) triple-backtick fence tagged `json`/`yaml`/`yml`, trailing
content after the closing fence being ignored; when the trimmed input
contains no tagged opener the whole trimmed input is used unchanged, and a
tagged fence with no closing delimiter yields no regex match, so nothing is
stripped. -/
theorem fence_stripping :
    (∀ tag ∈ fenceTags, ∀ (body post : List Char), ('\x60') ∉ body →
      findFence ("```".toList ++ tag ++ '\n' :: body
          ++ '\n' :: "```".toList ++ post) = some body) ∧
    (∀ (input g : List Char), findFence (jsTrim input) = some g →
      resolverContent true input = jsTrim g) ∧
    (∀ s : List Char, hasTaggedOpen s = false →
      resolverContent true s = jsTrim s) ∧
    (∀ tag ∈ fenceTags, ∀ body : List Char, ('\x60') ∉ body →
      findFence ("```".toList ++ tag ++ '\n' :: body) = none) := by
  refine ⟨findFence_tagged, ?_, resolverContent_no_open, findFence_missing_close⟩
  intro input g hfind
  rw [resolverContent]
  simp only [if_true]
  rw [hfind]

/-- Claim C1 counterexample: an untagged fence is not stripped (the regex
requires a format tag), and a tagged fence with a missing closing delimiter
is not stripped either — the source does not fall back to taking everything
after the opening fence. -/
theorem fence_counterexample :
    resolverContent true ("```\n[1]\n```".toList) = "```\n[1]\n```".toList ∧
    resolverContent true ("```json\n[1]".toList) = "```json\n[1]".toList :=
  ⟨rfl, rfl⟩

theorem fence_stripping_witness :
    findFence ("```".toList ++ "json".toList ++ '\n' :: "[1]".toList
        ++ '\n' :: "```".toList ++ "tail".toList) = some ("[1]".toList) ∧
    resolverContent true (" ```json\n[1]\n``` ".toList) = jsTrim ("[1]".toList) ∧
    resolverContent true ("hello".toList) = jsTrim ("hello".toList) ∧
    findFence ("```".toList ++ "yml".toList ++ '\n' :: "[2]".toList) = none :=
  ⟨fence_stripping.1 ("json".toList) (by decide) ("[1]".toList) ("tail".toList)
      (by decide),
    fence_stripping.2.1 (" ```json\n[1]\n``` ".toList) ("[1]".toList)
      (by decide),
    fence_stripping.2.2.1 ("hello".toList) (by decide),
    fence_stripping.2.2.2 ("yml".toList) (by decide) ("[2]".toList) (by decide)⟩

end LangExtract
